import Mathlib

/-!
Verification development for the Tacent formatted-print core (tPrint.cpp).

The definitions below are a shallow embedding of the C++ source:
  - the `Receiver` output sink and its `Receive` overloads,
  - the bounded string-printf entry point `tvsPrintf(dest, destSize, ...)`,
  - the format-string state machine `tSystem::Process` and its parsing
    helpers (`IsValidFormatSpecifierCharacter`, the handler registry),
  - the integer renderer helper `HandlerHelper_IntegerNative`
    (digit extraction, precision/leading-zero interaction, grouping),
  - the fixed-point float renderer `HandlerHelper_FloatNormal`
    (decimal expansion and round-half-up carry propagation),
  - the `%g` fixed/exponential branch choice of `Handler_g`,
  - the `%s` handler `Handler_s` and the justification helpers.

Machine integers are modelled as `Nat`/`Int` with explicit `% 2^w` where the
source relies on wrap-around; `double` arithmetic in the float renderer is
modelled over `ℚ` (exact arithmetic; the source's algorithm is digit-driven
and the modelled properties are those of the algorithm's control flow and
carry logic).
-/

namespace TacentPrint

/-- The C string terminator character. -/
def nullChar : Char := Char.ofNat 0

/-- The apostrophe flag character (`'`), written via its code point. -/
def apoChar : Char := Char.ofNat 39

/-- Model of `tStd::tIsdigit`: decimal digit test. -/
def isDigitChar (c : Char) : Bool := 48 ≤ c.toNat ∧ c.toNat ≤ 57

/-- Numeric value of a decimal digit character. -/
def digitVal (c : Char) : ℕ := c.toNat - 48

/-- The seven format flags of `enum Flag` (tPrint.cpp), modelled as a record
of booleans instead of a `uint32` bitmask. `decorativeFormatting` is the `_`
flag (group-of-4), `decorativeFormattingAlt` the `'` flag (group-of-3),
`basePfx` the `#` flag. -/
structure Flags where
  forcePosOrNegSign : Bool
  spaceForPosSign : Bool
  leadingZeros : Bool
  leftJustify : Bool
  decorativeFormatting : Bool
  decorativeFormattingAlt : Bool
  basePfx : Bool
deriving DecidableEq, Repr

/-- All flags clear (the `Flags(0)` default). -/
def Flags.none : Flags := ⟨false, false, false, false, false, false, false⟩

/-- Model of `struct FormatSpec`: flags, width, precision (−1 = unspecified) and the
type-size override in bytes (0 = not set, use the handler default). -/
structure FormatSpec where
  flags : Flags
  width : ℤ
  precision : ℤ
  typeSizeBytes : ℕ
deriving DecidableEq, Repr

/-- The `FormatSpec()` default constructor: no flags, width 0,
precision −1, type size 0. -/
def FormatSpec.default : FormatSpec := ⟨Flags.none, 0, -1, 0⟩

/-!
## The Receiver sink

`class Receiver` counts every character received and, when constructed with
an external string, writes the characters into it.  A receive limit of −1
means no limit.  The external string is modelled by the `written` list (the
sequence of characters stored so far); a count-only or buffer receiver has
`hasString = false` and leaves `written` empty.
-/

structure Receiver where
  hasString : Bool
  receiveLimit : ℤ
  written : List Char
  numReceived : ℕ
deriving DecidableEq, Repr

/-- Model of `Receiver::Receive(char)`: drop everything once the external string is
full, otherwise store the character and count it. -/
def receiveChar (r : Receiver) (c : Char) : Receiver :=
  if r.hasString ∧ r.receiveLimit ≠ -1 ∧ r.receiveLimit ≤ (r.numReceived : ℤ) then
    r
  else
    { r with
      written := if r.hasString then r.written ++ [c] else r.written
      numReceived := r.numReceived + 1 }

/-- Model of `Receiver::Receive(const char*, int numChars)` (and, with
`numChars = strlen(str)`, `Receive(const char*)`): clamp the run to the
remaining room of a bounded string receiver, then store and count the
clamped run.  `s` is the run of characters to deliver. -/
def receiveStr (r : Receiver) (s : List Char) : Receiver :=
  if s = [] then r
  else if r.hasString ∧ r.receiveLimit ≠ -1 then
    if r.receiveLimit ≤ (r.numReceived : ℤ) then r
    else
      let remaining := (r.receiveLimit - (r.numReceived : ℤ)).toNat
      let s' := if remaining < s.length then s.take remaining else s
      { r with written := r.written ++ s', numReceived := r.numReceived + s'.length }
  else
    { r with
      written := if r.hasString then r.written ++ s else r.written
      numReceived := r.numReceived + s.length }

/-- One receive operation: a single character or a (counted) character run. -/
inductive RcvOp where
  | rchar (c : Char)
  | rstr (s : List Char)
deriving DecidableEq, Repr

/-- Apply one receive operation. -/
def applyRcv (r : Receiver) : RcvOp → Receiver
  | .rchar c => receiveChar r c
  | .rstr s => receiveStr r s

/-- Run a sequence of receive operations. -/
def runReceiver (r : Receiver) (ops : List RcvOp) : Receiver :=
  ops.foldl applyRcv r

/-- The receiver built by `Receiver(char* string, int receiveLimit)`. -/
def mkStringReceiver (limit : ℤ) : Receiver := ⟨true, limit, [], 0⟩

/-!
## `tvsPrintf(char* dest, int destSize, const char* format, va_list)`

`Process` deposits the rendered characters into the receiver and finishes
with a single `Receive('\0')`; here the rendered text is abstracted as the
character list `rendered`, delivered character by character followed by the
terminating null, exactly as the bounded entry point drives its receiver.
Returns (return value, final contents of `dest` that were written). -/
def tvsPrintfModel (rendered : List Char) (destSize : ℤ) : ℤ × List Char :=
  if destSize ≤ 0 then (0, [])
  else if destSize = 1 then (0, [nullChar])
  else
    let r := (rendered ++ [nullChar]).foldl receiveChar (mkStringReceiver destSize)
    let recd := r.numReceived
    let len : ℤ := (recd : ℤ) - 1
    let final := if destSize = (recd : ℤ) then r.written.set (recd - 1) nullChar else r.written
    (len, final)

/-!
## Receiver lemmas
-/

/-- A bounded string receiver that is within its limit and whose written
length equals its count keeps both properties under `receiveChar`. -/
theorem receiveChar_invariant (r : Receiver) (c : Char)
    (hs : r.hasString = true) (hl : 0 ≤ r.receiveLimit)
    (hn : (r.numReceived : ℤ) ≤ r.receiveLimit)
    (hw : r.written.length = r.numReceived) :
    ((receiveChar r c).numReceived : ℤ) ≤ r.receiveLimit ∧
      (receiveChar r c).written.length = (receiveChar r c).numReceived ∧
      (receiveChar r c).hasString = true ∧
      (receiveChar r c).receiveLimit = r.receiveLimit := by
  unfold receiveChar
  by_cases hfull : r.hasString ∧ r.receiveLimit ≠ -1 ∧ r.receiveLimit ≤ (r.numReceived : ℤ)
  · rw [if_pos hfull]
    exact ⟨hn, hw, hs, rfl⟩
  · have hne : r.receiveLimit ≠ -1 := by omega
    have hlt : (r.numReceived : ℤ) < r.receiveLimit := by
      rcases lt_or_ge (r.numReceived : ℤ) r.receiveLimit with h | h
      · exact h
      · exact absurd ⟨hs, hne, h⟩ hfull
    rw [if_neg hfull]
    refine ⟨by push_cast; omega, ?_, hs, rfl⟩
    simp [hs, hw]

/-- Same preservation for a counted run `receiveStr`. -/
theorem receiveStr_invariant (r : Receiver) (s : List Char)
    (hs : r.hasString = true) (hl : 0 ≤ r.receiveLimit)
    (hn : (r.numReceived : ℤ) ≤ r.receiveLimit)
    (hw : r.written.length = r.numReceived) :
    ((receiveStr r s).numReceived : ℤ) ≤ r.receiveLimit ∧
      (receiveStr r s).written.length = (receiveStr r s).numReceived ∧
      (receiveStr r s).hasString = true ∧
      (receiveStr r s).receiveLimit = r.receiveLimit := by
  unfold receiveStr
  by_cases hnil : s = []
  · rw [if_pos hnil]
    exact ⟨hn, hw, hs, rfl⟩
  · have hne : r.receiveLimit ≠ -1 := by omega
    rw [if_neg hnil, if_pos ⟨hs, hne⟩]
    by_cases hfull : r.receiveLimit ≤ (r.numReceived : ℤ)
    · rw [if_pos hfull]
      exact ⟨hn, hw, hs, rfl⟩
    · rw [if_neg hfull]
      by_cases h : (r.receiveLimit - (r.numReceived : ℤ)).toNat < s.length
      · simp only [if_pos h, List.length_append, List.length_take]
        refine ⟨by push_cast; omega, ?_, hs, by trivial⟩
        simp only [List.length_append, List.length_take, hw]
      · simp only [if_neg h, List.length_append]
        refine ⟨by push_cast; omega, ?_, hs, by trivial⟩
        simp only [List.length_append, hw]

/-- Invariant preservation for a whole operation sequence, starting from any
in-invariant state. -/
theorem runReceiver_invariant (ops : List RcvOp) (r : Receiver)
    (hs : r.hasString = true) (hl : 0 ≤ r.receiveLimit)
    (hn : (r.numReceived : ℤ) ≤ r.receiveLimit)
    (hw : r.written.length = r.numReceived) :
    ((runReceiver r ops).numReceived : ℤ) ≤ r.receiveLimit ∧
      (runReceiver r ops).written.length = (runReceiver r ops).numReceived := by
  induction ops generalizing r with
  | nil => exact ⟨hn, hw⟩
  | cons op rest ih =>
    have hstep :
        ((applyRcv r op).numReceived : ℤ) ≤ r.receiveLimit ∧
          (applyRcv r op).written.length = (applyRcv r op).numReceived ∧
          (applyRcv r op).hasString = true ∧
          (applyRcv r op).receiveLimit = r.receiveLimit := by
      cases op with
      | rchar c => exact receiveChar_invariant r c hs hl hn hw
      | rstr s => exact receiveStr_invariant r s hs hl hn hw
    obtain ⟨h1, h2, h3, h4⟩ := hstep
    have := ih (applyRcv r op) h3 (h4 ▸ hl) (h4 ▸ h1) h2
    simpa [runReceiver, h4] using this

/-- C9: a `Receiver` constructed with an external string and a non-negative
receive limit `L` never counts past `L`, and after any sequence of receive
operations (single characters or counted runs) the number of characters
written into the external string is at most `L`. -/
theorem receiver_limit_invariant (L : ℤ) (hL : 0 ≤ L) (ops : List RcvOp) :
    ((runReceiver (mkStringReceiver L) ops).numReceived : ℤ) ≤ L ∧
      ((runReceiver (mkStringReceiver L) ops).written.length : ℤ) ≤ L := by
  have h := runReceiver_invariant ops (mkStringReceiver L) rfl hL
    (by simpa [mkStringReceiver] using hL) rfl
  exact ⟨h.1, by rw [h.2]; exact h.1⟩

/-- Witness for C9 at a concrete limit and operation sequence. -/
theorem receiver_limit_invariant_witness :
    ((runReceiver (mkStringReceiver 3) [.rchar 'a', .rstr ['b', 'c', 'd', 'e'], .rchar 'f']).numReceived : ℤ) ≤ 3 ∧
      ((runReceiver (mkStringReceiver 3) [.rchar 'a', .rstr ['b', 'c', 'd', 'e'], .rchar 'f']).written.length : ℤ) ≤ 3 :=
  receiver_limit_invariant 3 (by decide) [.rchar 'a', .rstr ['b', 'c', 'd', 'e'], .rchar 'f']

/-- Characterisation of delivering a character run into a bounded string
receiver: characters are written while room remains and the running count
saturates at the receive limit. -/
theorem foldl_receiveChar_run (s : List Char) (L : ℤ) (w : List Char) (n : ℕ)
    (hL : 0 ≤ L) (hn : (n : ℤ) ≤ L) :
    s.foldl receiveChar ⟨true, L, w, n⟩ =
      ⟨true, L, w ++ s.take (L.toNat - n), n + min s.length (L.toNat - n)⟩ := by
  induction s generalizing w n with
  | nil => simp
  | cons c cs ih =>
    have hne : L ≠ -1 := by omega
    by_cases hfull : L ≤ (n : ℤ)
    · have hk : L.toNat - n = 0 := by omega
      have hstep : receiveChar ⟨true, L, w, n⟩ c = ⟨true, L, w, n⟩ := by
        simp [receiveChar, hne, hfull]
      rw [List.foldl_cons, hstep, ih w n hn]
      simp [hk]
    · have hlt : (n : ℤ) < L := lt_of_not_ge hfull
      have hstep : receiveChar ⟨true, L, w, n⟩ c = ⟨true, L, w ++ [c], n + 1⟩ := by
        simp [receiveChar, hfull]
      rw [List.foldl_cons, hstep, ih (w ++ [c]) (n + 1) (by omega)]
      have hk : L.toNat - n = (L.toNat - (n + 1)) + 1 := by omega
      rw [hk]
      simp only [Receiver.mk.injEq, true_and]
      constructor
      · rw [List.take_succ_cons, List.append_assoc]
        rfl
      · simp only [List.length_cons]
        omega

/-- Writing `set k` on a buffer of length `k + 1` replaces its last cell. -/
theorem list_set_last (l : List Char) (x : Char) (k : ℕ) (h : l.length = k + 1) :
    l.set k x = l.take k ++ [x] := by
  induction l generalizing k with
  | nil => simp at h
  | cons a t ih =>
    cases k with
    | zero =>
      have : t = [] := by
        cases t with
        | nil => rfl
        | cons b u => simp at h
      simp [this]
    | succ m =>
      have : t.length = m + 1 := by simpa using h
      simp [List.set_cons_succ, List.take_succ_cons, ih m this]

/-- C1 (amended): the bounded entry point `tvsPrintf(dest, destSize, ...)`
copies at most `destSize` characters in total, always stores a terminating
null within capacity, and returns `min(renderedLength, destSize - 1)` — the
number of characters stored before the terminator — NOT the untruncated
required length; correspondingly the receiver count saturates at the limit
instead of counting past it. -/
theorem tvsPrintf_truncation (rendered : List Char) (destSize : ℤ)
    (h : 1 ≤ destSize) :
    tvsPrintfModel rendered destSize =
      (min (rendered.length : ℤ) (destSize - 1),
        rendered.take (min rendered.length (destSize - 1).toNat) ++ [nullChar]) := by
  by_cases h1 : destSize = 1
  · subst h1
    unfold tvsPrintfModel
    norm_num
  · have h2 : 2 ≤ destSize := by omega
    have hrun := foldl_receiveChar_run (rendered ++ [nullChar]) destSize [] 0 (by omega) (by omega)
    simp only [List.nil_append, Nat.sub_zero, Nat.zero_add, List.length_append,
      List.length_singleton] at hrun
    unfold tvsPrintfModel
    rw [if_neg (by omega), if_neg h1]
    simp only [mkStringReceiver]
    rw [hrun]
    simp only [Prod.mk.injEq]
    set N := rendered.length with hN
    set D := destSize.toNat with hD
    have hD2 : 2 ≤ D := by omega
    have hDz : (D : ℤ) = destSize := by omega
    by_cases hge : D ≤ N + 1
    · have hmin : min (N + 1) D = D := by omega
      rw [hmin, if_pos (by omega)]
      refine ⟨by omega, ?_⟩
      by_cases heq : D = N + 1
      · have htake : (rendered ++ [nullChar]).take D = rendered ++ [nullChar] := by
          apply List.take_of_length_le
          simp only [List.length_append, List.length_singleton]
          omega
        rw [htake, list_set_last (rendered ++ [nullChar]) nullChar (D - 1)
          (by simp only [List.length_append, List.length_singleton]; omega)]
        have htk : (rendered ++ [nullChar]).take (D - 1) = rendered.take (D - 1) := by
          apply List.take_append_of_le_length
          omega
        rw [htk]
        have hix : D - 1 = min N (destSize - 1).toNat := by omega
        rw [hix]
      · have hlt : D ≤ N := by omega
        have htake : (rendered ++ [nullChar]).take D = rendered.take D := by
          apply List.take_append_of_le_length
          omega
        rw [htake, list_set_last (rendered.take D) nullChar (D - 1)
          (by rw [List.length_take]; omega)]
        rw [List.take_take]
        have hix : min (D - 1) D = min N (destSize - 1).toNat := by omega
        rw [hix]
    · have hmin : min (N + 1) D = N + 1 := by omega
      rw [hmin, if_neg (by omega)]
      refine ⟨by omega, ?_⟩
      have htake : (rendered ++ [nullChar]).take D = rendered ++ [nullChar] := by
        apply List.take_of_length_le
        simp only [List.length_append, List.length_singleton]
        omega
      rw [htake]
      congr 1
      have hm2 : min N (destSize - 1).toNat = N := by omega
      rw [hm2, List.take_of_length_le (by omega)]

/-- C1 (counterexample): a capacity-3 sink given a 10-character render result
returns 2 — not the untruncated required length 10 — and its character count
saturates at the limit 3 rather than continuing to increment for all 11
delivered characters. -/
theorem tvsPrintf_truncation_counterexample :
    (tvsPrintfModel ['0', '1', '2', '3', '4', '5', '6', '7', '8', '9'] 3).1 = 2 ∧
      (tvsPrintfModel ['0', '1', '2', '3', '4', '5', '6', '7', '8', '9'] 3).1 ≠ 10 ∧
      ((['0', '1', '2', '3', '4', '5', '6', '7', '8', '9'] ++ [nullChar]).foldl receiveChar
          (mkStringReceiver 3)).numReceived = 3 := by
  refine ⟨?_, ?_, ?_⟩ <;> decide

/-- Witness for the amended C1 theorem at a concrete render and capacity. -/
theorem tvsPrintf_truncation_witness :
    tvsPrintfModel ['a'] 3 = (1, ['a', nullChar]) :=
  (tvsPrintf_truncation ['a'] 3 (by decide)).trans (by decide)

/-!
## The format-string state machine (`tSystem::Process`)

The format string lives in C memory; `Process` walks a `const char*` cursor.
The memory is modelled as a `List Char` holding the bytes from the cursor
position onward — including the string's own terminating null and whatever
bytes happen to follow it.  Reads beyond the end of the modelled memory give
the null byte.  `va_list` accesses for `*` width/precision and for the
per-directive operand fetch are modelled by a list of integers.
-/

structure ParseState where
  spec : FormatSpec
  mem : List Char
  args : List ℤ
deriving DecidableEq, Repr

/-- The flag-parsing loop of `Process` (`while` over `- + space 0 _ ' #`). -/
def parseFlagsLoop (spec : FormatSpec) : List Char → FormatSpec × List Char
  | [] => (spec, [])
  | c :: rest =>
    if c = '-' then parseFlagsLoop { spec with flags := { spec.flags with leftJustify := true } } rest
    else if c = '+' then parseFlagsLoop { spec with flags := { spec.flags with forcePosOrNegSign := true } } rest
    else if c = ' ' then parseFlagsLoop { spec with flags := { spec.flags with spaceForPosSign := true } } rest
    else if c = '0' then parseFlagsLoop { spec with flags := { spec.flags with leadingZeros := true } } rest
    else if c = '_' then parseFlagsLoop { spec with flags := { spec.flags with decorativeFormatting := true } } rest
    else if c = apoChar then parseFlagsLoop { spec with flags := { spec.flags with decorativeFormattingAlt := true } } rest
    else if c = '#' then parseFlagsLoop { spec with flags := { spec.flags with basePfx := true } } rest
    else (spec, c :: rest)

def parseFlagsS (st : ParseState) : ParseState :=
  ⟨(parseFlagsLoop st.spec st.mem).1, (parseFlagsLoop st.spec st.mem).2, st.args⟩

/-- Rule from the source docs: if 0 (leading zeroes) and - (left justify)
appear, leading-zeroes is ignored. -/
def fixLeadingZeros (st : ParseState) : ParseState :=
  if st.spec.flags.leadingZeros ∧ st.spec.flags.leftJustify then
    ⟨{ st.spec with flags := { st.spec.flags with leadingZeros := false } }, st.mem, st.args⟩
  else st

/-- The digit-accumulation loop (`x = x * 10 + (format[0] - '0')`). -/
def parseDigitsNat (acc : ℕ) : List Char → ℕ × List Char
  | [] => (acc, [])
  | c :: rest =>
    if isDigitChar c then parseDigitsNat (acc * 10 + digitVal c) rest
    else (acc, c :: rest)

/-- Width: decimal digits, or `*` reading the next `int` argument. -/
def parseWidthS (st : ParseState) : ParseState :=
  if st.mem.headD nullChar = '*' then
    ⟨{ st.spec with width := st.args.headD 0 }, st.mem.tail, st.args.tail⟩
  else
    ⟨{ st.spec with width := (parseDigitsNat 0 st.mem).1 }, (parseDigitsNat 0 st.mem).2, st.args⟩

/-- Precision: optional `.` then decimal digits or `*`; `.` alone gives 0. -/
def parsePrecisionS (st : ParseState) : ParseState :=
  if st.mem.headD nullChar = '.' then
    if st.mem.tail.headD nullChar = '*' then
      ⟨{ st.spec with precision := st.args.headD 0 }, st.mem.tail.tail, st.args.tail⟩
    else
      ⟨{ st.spec with precision := (parseDigitsNat 0 st.mem.tail).1 },
        (parseDigitsNat 0 st.mem.tail).2, st.args⟩
  else st

/-- Type-size override: one of `:N`, `!N`, `|N`; `:` multiplies the parsed
number by 4, `|` divides it by 8, `!` keeps it as is. -/
def parseTypeSizeS (st : ParseState) : ParseState :=
  if st.mem.headD nullChar = ':' ∨ st.mem.headD nullChar = '!' ∨ st.mem.headD nullChar = '|' then
    ⟨{ st.spec with
        typeSizeBytes :=
          if st.mem.headD nullChar = ':' then (parseDigitsNat 0 st.mem.tail).1 * 4
          else if st.mem.headD nullChar = '|' then (parseDigitsNat 0 st.mem.tail).1 / 8
          else (parseDigitsNat 0 st.mem.tail).1 },
      (parseDigitsNat 0 st.mem.tail).2, st.args⟩
  else st

/-- One handler-registry entry (`struct HandlerInfo`): the directive
character and the default operand size in bytes.  Pointer-sized entries use
8 (64-bit target); `v` defaults to `sizeof(tVec3) = 12`, `q` to
`sizeof(tQuat) = 16`, `m` to `sizeof(tMat4) = 64`. -/
structure HandlerInfo where
  specChar : Char
  defaultByteSize : ℕ
deriving DecidableEq, Repr

/-- The fixed handler registry `HandlerInfos[]`. -/
def handlerInfos : List HandlerInfo :=
  [⟨'b', 4⟩, ⟨'o', 4⟩, ⟨'d', 4⟩, ⟨'i', 4⟩, ⟨'u', 4⟩, ⟨'x', 4⟩, ⟨'X', 4⟩,
    ⟨'p', 8⟩, ⟨'e', 8⟩, ⟨'f', 8⟩, ⟨'g', 8⟩, ⟨'v', 12⟩, ⟨'q', 16⟩, ⟨'m', 64⟩,
    ⟨'c', 4⟩, ⟨'s', 8⟩, ⟨'B', 4⟩]

/-- Model of `FindHandler`: null never matches; otherwise the jump table (verified
against the entry, with a linear-scan fallback) yields the first registry
entry with the matching directive character. -/
def findHandler (c : Char) : Option HandlerInfo :=
  if c = nullChar then Option.none
  else handlerInfos.find? (fun h => h.specChar = c)

/-- Model of `IsValidFormatSpecifierCharacter`: flags, width/precision starters,
type-size starters, or a registered type character. -/
def isValidFormatSpecifierCharacter (c : Char) : Bool :=
  if c = '-' ∨ c = '+' ∨ c = ' ' ∨ c = '0' ∨ c = '#' ∨ c = '_' ∨ c = apoChar then true
  else if isDigitChar c ∨ c = '.' ∨ c = '*' then true
  else if c = ':' ∨ c = '!' ∨ c = '|' then true
  else (findHandler c).isSome

/-- Absent override (`TypeSizeBytes == 0`) is replaced by the selected
handler's default byte size. -/
def applyDefaultSize (spec : FormatSpec) (h : HandlerInfo) : FormatSpec :=
  if spec.typeSizeBytes = 0 then { spec with typeSizeBytes := h.defaultByteSize } else spec

/-- Parsing a whole directive after the `%`: flags, the leading-zero /
left-justify interaction, width, precision, type size. -/
def parseDirective (st : ParseState) : ParseState :=
  parseTypeSizeS (parsePrecisionS (parseWidthS (fixLeadingZeros (parseFlagsS st))))

theorem tail_len_le (l : List Char) : l.tail.length ≤ l.length := by
  cases l <;> simp

theorem parseFlagsLoop_mem_le (spec : FormatSpec) (mem : List Char) :
    (parseFlagsLoop spec mem).2.length ≤ mem.length := by
  induction mem generalizing spec with
  | nil => simp [parseFlagsLoop]
  | cons c rest ih =>
    unfold parseFlagsLoop
    repeat' split
    all_goals first
      | (exact le_rfl)
      | (exact le_trans (ih _) (by simp))

theorem parseDigitsNat_mem_le (acc : ℕ) (mem : List Char) :
    (parseDigitsNat acc mem).2.length ≤ mem.length := by
  induction mem generalizing acc with
  | nil => simp [parseDigitsNat]
  | cons c rest ih =>
    unfold parseDigitsNat
    split
    · exact le_trans (ih _) (by simp)
    · exact le_rfl

theorem parseFlagsS_mem_le (st : ParseState) :
    (parseFlagsS st).mem.length ≤ st.mem.length :=
  parseFlagsLoop_mem_le st.spec st.mem

theorem fixLeadingZeros_mem (st : ParseState) :
    (fixLeadingZeros st).mem = st.mem := by
  unfold fixLeadingZeros
  split <;> rfl

theorem parseWidthS_mem_le (st : ParseState) :
    (parseWidthS st).mem.length ≤ st.mem.length := by
  unfold parseWidthS
  split
  · exact tail_len_le st.mem
  · exact parseDigitsNat_mem_le 0 st.mem

theorem parsePrecisionS_mem_le (st : ParseState) :
    (parsePrecisionS st).mem.length ≤ st.mem.length := by
  unfold parsePrecisionS
  have h1 := tail_len_le st.mem
  have h2 := tail_len_le st.mem.tail
  have h3 := parseDigitsNat_mem_le 0 st.mem.tail
  split
  · split
    · simp only []
      omega
    · simp only []
      omega
  · exact le_rfl

theorem parseTypeSizeS_mem_le (st : ParseState) :
    (parseTypeSizeS st).mem.length ≤ st.mem.length := by
  unfold parseTypeSizeS
  have h1 := tail_len_le st.mem
  have h3 := parseDigitsNat_mem_le 0 st.mem.tail
  split
  · simp only []
    omega
  · exact le_rfl

theorem parseDirective_mem_le (st : ParseState) :
    (parseDirective st).mem.length ≤ st.mem.length := by
  unfold parseDirective
  calc (parseTypeSizeS (parsePrecisionS (parseWidthS (fixLeadingZeros (parseFlagsS st))))).mem.length
      ≤ (parsePrecisionS (parseWidthS (fixLeadingZeros (parseFlagsS st)))).mem.length :=
        parseTypeSizeS_mem_le _
    _ ≤ (parseWidthS (fixLeadingZeros (parseFlagsS st))).mem.length := parsePrecisionS_mem_le _
    _ = (parseWidthS (fixLeadingZeros (parseFlagsS st))).mem.length := rfl
    _ ≤ (fixLeadingZeros (parseFlagsS st)).mem.length := parseWidthS_mem_le _
    _ = (parseFlagsS st).mem.length := by rw [fixLeadingZeros_mem]
    _ ≤ st.mem.length := parseFlagsS_mem_le st

/-- The events `Process` produces: literal characters and the escaped
character after an invalid `%`-pair go straight to the receiver; a parsed
directive dispatches its handler; a directive character missing from the
registry violates the `tAssert(handler)` contract. -/
inductive Event where
  | literal (c : Char)
  | verbatim (c : Char)
  | directive (spec : FormatSpec) (type : Char)
  | badDirective (type : Char)
deriving DecidableEq, Repr

/-- The scan loop of `tSystem::Process`, with an explicit iteration bound.
Each loop iteration either delivers the current character, delivers the
character after an invalid `%`, or parses and dispatches a whole directive
(consuming one operand from the argument stream, the `va_arg` switch).
Every iteration consumes at least one memory character, so the bound
`fuel = mem.length` supplied by `process` below never runs out before the
scan stops at a null byte or the end of the modelled memory. -/
def processFuel : ℕ → List Char → List ℤ → List Event
  | 0, _, _ => []
  | _ + 1, [], _ => []
  | fuel + 1, c :: rest, args =>
    if c = nullChar then []
    else if c ≠ '%' then Event.literal c :: processFuel fuel rest args
    else if ¬ isValidFormatSpecifierCharacter (rest.headD nullChar) then
      Event.verbatim (rest.headD nullChar) :: processFuel fuel rest.tail args
    else
      let st := parseDirective ⟨FormatSpec.default, rest, args⟩
      let t := st.mem.headD nullChar
      match findHandler t with
      | Option.none => [Event.badDirective t]
      | Option.some h =>
          Event.directive (applyDefaultSize st.spec h) t :: processFuel fuel st.mem.tail st.args.tail

/-- Model of `tSystem::Process` on a memory block: the scan starts at the cursor with
enough fuel for the whole block. -/
def process (mem : List Char) (args : List ℤ) : List Event :=
  processFuel mem.length mem args

/-- The scan loop never produces events with zero fuel. -/
theorem processFuel_zero (mem : List Char) (args : List ℤ) :
    processFuel 0 mem args = [] := by
  cases mem <;> rfl

/-- The scan loop stops at the end of the modelled memory. -/
theorem processFuel_nil (fuel : ℕ) (args : List ℤ) :
    processFuel fuel [] args = [] := by
  cases fuel <;> rfl

/-- One-step unfolding of the scan loop on a non-empty memory block. -/
theorem processFuel_succ_cons (fuel : ℕ) (c : Char) (rest : List Char) (args : List ℤ) :
    processFuel (fuel + 1) (c :: rest) args =
      (if c = nullChar then []
      else if c ≠ '%' then Event.literal c :: processFuel fuel rest args
      else if ¬ isValidFormatSpecifierCharacter (rest.headD nullChar) then
        Event.verbatim (rest.headD nullChar) :: processFuel fuel rest.tail args
      else
        match findHandler ((parseDirective ⟨FormatSpec.default, rest, args⟩).mem.headD nullChar) with
        | Option.none =>
            [Event.badDirective ((parseDirective ⟨FormatSpec.default, rest, args⟩).mem.headD nullChar)]
        | Option.some h =>
            Event.directive (applyDefaultSize (parseDirective ⟨FormatSpec.default, rest, args⟩).spec h)
                ((parseDirective ⟨FormatSpec.default, rest, args⟩).mem.headD nullChar) ::
              processFuel fuel (parseDirective ⟨FormatSpec.default, rest, args⟩).mem.tail
                (parseDirective ⟨FormatSpec.default, rest, args⟩).args.tail) := rfl

/-- The fuel bound is irrelevant as long as it covers the memory length:
the scan advances at least one character per iteration. -/
theorem processFuel_irrel (f1 : ℕ) (mem : List Char) (args : List ℤ) (f2 : ℕ)
    (h1 : mem.length ≤ f1) (h2 : mem.length ≤ f2) :
    processFuel f1 mem args = processFuel f2 mem args := by
  induction f1 generalizing mem args f2 with
  | zero =>
    have hm : mem = [] := by
      cases mem with
      | nil => rfl
      | cons c rest => simp at h1
    subst hm
    rw [processFuel_zero, processFuel_nil]
  | succ f ih =>
    cases mem with
    | nil => rw [processFuel_nil, processFuel_nil]
    | cons c rest =>
      cases f2 with
      | zero => simp at h2
      | succ g =>
        rw [processFuel_succ_cons, processFuel_succ_cons]
        simp only [List.length_cons] at h1 h2
        by_cases hc0 : c = nullChar
        · simp only [if_pos hc0]
        · by_cases hcp : c ≠ '%'
          · simp only [if_neg hc0, if_pos hcp]
            rw [ih rest args g (by omega) (by omega)]
          · by_cases hv : ¬ isValidFormatSpecifierCharacter (rest.headD nullChar)
            · simp only [if_neg hc0, if_neg hcp, if_pos hv]
              have ht := tail_len_le rest
              rw [ih rest.tail args g (by omega) (by omega)]
            · simp only [if_neg hc0, if_neg hcp, if_neg hv]
              have hd := parseDirective_mem_le ⟨FormatSpec.default, rest, args⟩
              simp only [] at hd
              have ht := tail_len_le (parseDirective ⟨FormatSpec.default, rest, args⟩).mem
              cases hfh : findHandler ((parseDirective ⟨FormatSpec.default, rest, args⟩).mem.headD nullChar) with
              | none => simp only [hfh]
              | some hinfo =>
                simp only [hfh]
                rw [ih _ _ g (by omega) (by omega)]

/-- A non-`%` character is delivered verbatim and the scan advances one. -/
theorem process_literal (c : Char) (rest : List Char) (args : List ℤ)
    (h1 : c ≠ nullChar) (h2 : c ≠ '%') :
    process (c :: rest) args = Event.literal c :: process rest args := by
  unfold process
  rw [List.length_cons, processFuel_succ_cons, if_neg h1, if_pos h2]

/-- The scan stops at a null byte. -/
theorem process_null (rest : List Char) (args : List ℤ) :
    process (nullChar :: rest) args = [] := by
  unfold process
  rw [List.length_cons, processFuel_succ_cons, if_pos rfl]

/-- The scan stops at the end of the modelled memory. -/
theorem process_end (args : List ℤ) : process [] args = [] :=
  processFuel_nil 0 args

/-- A `%` followed by an invalid specifier character delivers that following
character and advances two characters. -/
theorem process_verbatim (rest : List Char) (args : List ℤ)
    (h : isValidFormatSpecifierCharacter (rest.headD nullChar) = false) :
    process ('%' :: rest) args =
      Event.verbatim (rest.headD nullChar) :: process rest.tail args := by
  unfold process
  rw [List.length_cons, processFuel_succ_cons,
    if_neg (by decide : ¬ ('%' : Char) = nullChar),
    if_neg (by simp : ¬ ('%' : Char) ≠ '%'), if_pos (by rw [h]; decide)]
  rw [processFuel_irrel rest.length rest.tail args rest.tail.length (tail_len_le rest) le_rfl]

/-- C2: the scan does NOT stop at the format string's own null terminator
when the string's last character is `%`.  The memory here holds the format
string `"%"` (bytes `%`, null) followed by the adjacent bytes `A`, null.
`Process` treats the terminator as the character after `%`, delivers it,
advances two — past the terminator — and goes on to deliver the adjacent
byte `A` that lies outside the string. -/
theorem process_trailing_percent_overread :
    process ['%', nullChar, 'A', nullChar] [] =
      [Event.verbatim nullChar, Event.literal 'A'] := by
  rw [process_verbatim [nullChar, 'A', nullChar] [] (by decide)]
  simp only [List.headD_cons, List.tail_cons]
  rw [process_literal 'A' [nullChar] [] (by decide) (by decide), process_null]

/-- C8: after a `%`, a character that is no flag character, no digit, none of
`.` `*` `:` `!` `|`, and no registered type character is delivered verbatim
to the sink and the scan advances two characters. -/
theorem percent_invalid_char_verbatim (c : Char) (rest : List Char) (args : List ℤ)
    (hflag : c ≠ '-' ∧ c ≠ '+' ∧ c ≠ ' ' ∧ c ≠ '0' ∧ c ≠ '#' ∧ c ≠ '_' ∧ c ≠ apoChar)
    (hdig : isDigitChar c = false) (hdot : c ≠ '.') (hstar : c ≠ '*')
    (hts : c ≠ ':' ∧ c ≠ '!' ∧ c ≠ '|')
    (hh : findHandler c = Option.none) :
    process ('%' :: c :: rest) args = Event.verbatim c :: process rest args := by
  obtain ⟨g1, g2, g3, g4, g5, g6, g7⟩ := hflag
  obtain ⟨t1, t2, t3⟩ := hts
  have hvalid : isValidFormatSpecifierCharacter c = false := by
    unfold isValidFormatSpecifierCharacter
    rw [if_neg (by tauto), if_neg ?_, if_neg (by tauto), hh]
    · rfl
    · push_neg
      exact ⟨by simp [hdig], hdot, hstar⟩
  have hstep := process_verbatim (c :: rest) args (by simpa using hvalid)
  simpa using hstep

/-- Witness for C8: `%%` renders a single literal `%`. -/
theorem percent_invalid_char_verbatim_witness :
    process ['%', '%', nullChar] [] = [Event.verbatim '%'] := by
  rw [percent_invalid_char_verbatim '%' [nullChar] [] (by decide) (by decide)
    (by decide) (by decide) (by decide) (by decide), process_null]

/-- The digit-accumulation loop computes the decimal value of a digit run
and stops at the first non-digit. -/
theorem parseDigitsNat_append (ds rest : List Char) (acc : ℕ)
    (hds : ∀ c ∈ ds, isDigitChar c = true)
    (hrest : isDigitChar (rest.headD nullChar) = false) :
    parseDigitsNat acc (ds ++ rest) =
      (acc * 10 ^ ds.length + Nat.ofDigits 10 (ds.map digitVal).reverse, rest) := by
  induction ds generalizing acc with
  | nil =>
    simp only [List.nil_append, List.length_nil, pow_zero, Nat.mul_one, List.map_nil,
      List.reverse_nil, Nat.ofDigits_nil, Nat.add_zero]
    cases rest with
    | nil => rfl
    | cons c t =>
      have hc : isDigitChar c = false := by simpa using hrest
      unfold parseDigitsNat
      rw [if_neg (by simp [hc])]
  | cons d ds ih =>
    have hd : isDigitChar d = true := hds d (by simp)
    have hds' : ∀ c ∈ ds, isDigitChar c = true := fun c hc => hds c (by simp [hc])
    rw [List.cons_append]
    unfold parseDigitsNat
    rw [if_pos (by simp [hd]), ih (acc * 10 + digitVal d) hds']
    have hlen : ((ds.map digitVal).reverse).length = ds.length := by simp
    simp only [List.map_cons, List.reverse_cons, Nat.ofDigits_append, hlen,
      Nat.ofDigits_singleton, List.length_cons, Prod.mk.injEq, and_true]
    ring

/-- C7: the operand-size override parses `:N` to `N*4` bytes, `!N` to `N`
bytes, `|N` to `N/8` bytes (`N` the decimal value of the digit run); any
other character leaves the override untouched, and an absent override
(`TypeSizeBytes == 0`) is replaced at dispatch by the selected handler's
default byte size. -/
theorem typesize_override_semantics (spec : FormatSpec) (args : List ℤ) (u : Char)
    (ds rest : List Char) (hinfo : HandlerInfo)
    (hds : ∀ c ∈ ds, isDigitChar c = true)
    (hrest : isDigitChar (rest.headD nullChar) = false) :
    (u = ':' →
      parseTypeSizeS ⟨spec, u :: (ds ++ rest), args⟩ =
        ⟨{ spec with typeSizeBytes := Nat.ofDigits 10 (ds.map digitVal).reverse * 4 },
          rest, args⟩) ∧
    (u = '!' →
      parseTypeSizeS ⟨spec, u :: (ds ++ rest), args⟩ =
        ⟨{ spec with typeSizeBytes := Nat.ofDigits 10 (ds.map digitVal).reverse },
          rest, args⟩) ∧
    (u = '|' →
      parseTypeSizeS ⟨spec, u :: (ds ++ rest), args⟩ =
        ⟨{ spec with typeSizeBytes := Nat.ofDigits 10 (ds.map digitVal).reverse / 8 },
          rest, args⟩) ∧
    (¬ (u = ':' ∨ u = '!' ∨ u = '|') →
      parseTypeSizeS ⟨spec, u :: (ds ++ rest), args⟩ = ⟨spec, u :: (ds ++ rest), args⟩) ∧
    (spec.typeSizeBytes = 0 →
      (applyDefaultSize spec hinfo).typeSizeBytes = hinfo.defaultByteSize) := by
  have hparse := parseDigitsNat_append ds rest 0 hds hrest
  refine ⟨?_, ?_, ?_, ?_, ?_⟩
  · intro hu
    subst hu
    unfold parseTypeSizeS
    simp only [List.headD_cons, List.tail_cons]
    rw [if_pos (by tauto), hparse]
    simp
  · intro hu
    subst hu
    unfold parseTypeSizeS
    simp only [List.headD_cons, List.tail_cons]
    rw [if_pos (by tauto), hparse]
    simp
  · intro hu
    subst hu
    unfold parseTypeSizeS
    simp only [List.headD_cons, List.tail_cons]
    rw [if_pos (by tauto), hparse]
    simp
  · intro hu
    unfold parseTypeSizeS
    simp only [List.headD_cons]
    rw [if_neg hu]
  · intro hz
    unfold applyDefaultSize
    rw [if_pos hz]

/-- Witness for C7: `!32` parses to a 32-byte override, and an absent
override takes the handler default. -/
theorem typesize_override_semantics_witness :
    parseTypeSizeS ⟨FormatSpec.default, '!' :: (['3', '2'] ++ ['d']), []⟩ =
      ⟨{ FormatSpec.default with typeSizeBytes := 32 }, ['d'], []⟩ ∧
      (applyDefaultSize FormatSpec.default ⟨'d', 4⟩).typeSizeBytes = 4 := by
  have h := typesize_override_semantics FormatSpec.default [] '!' ['3', '2'] ['d'] ⟨'d', 4⟩
    (by decide) (by decide)
  refine ⟨(h.2.1 rfl).trans ?_, h.2.2.2.2 rfl⟩
  decide

/-!
## Integer rendering (`HandlerHelper_IntegerNative` / `..._IntegerTacent`)
-/

/-- Effective integer precision: `if (precision == -1) precision = 1` —
default precision 1. -/
def effIntPrecision (p : ℤ) : ℤ := if p = -1 then 1 else p

/-- Effective integer flags: an explicit precision clears the LeadingZeros
flag (`flags &= ~Flag_LeadingZeros`). -/
def effIntFlags (flags : Flags) (p : ℤ) : Flags :=
  if p = -1 then flags else { flags with leadingZeros := false }

/-- Digit character: `digit = char(v + '0')`, with digits above 9 shifted by
`'a' - '9' - 1` (or `'A' - '9' - 1` in upper case). -/
def intDigitChar (upper : Bool) (d : ℕ) : Char :=
  if 57 < d + 48 then Char.ofNat (d + 48 + (if upper then 7 else 39))
  else Char.ofNat (d + 48)

/-- The digit-extraction loop `while ((precision-- > 0) || rawValue)`,
emitting least-significant digits first, with an explicit iteration bound
(each iteration decrements the precision and divides the value by the base,
so `precision.toNat + value + 1` iterations always suffice for the
contract bases 2, 8, 10, 16; the C loop would not terminate for base 1). -/
def digitLoopFuel (base : ℕ) (upper : Bool) : ℕ → ℤ → ℕ → List Char
  | 0, _, _ => []
  | fuel + 1, precision, value =>
    if 0 < precision ∨ value ≠ 0 then
      intDigitChar upper (value % base) :: digitLoopFuel base upper fuel (precision - 1) (value / base)
    else []

/-- The digit-extraction loop with its iteration bound filled in. -/
def digitLoop (base : ℕ) (upper : Bool) (precision : ℤ) (value : ℕ) : List Char :=
  digitLoopFuel base upper (precision.toNat + value + 1) precision value

/-- Fuel irrelevance for the digit-extraction loop. -/
theorem digitLoopFuel_irrel (base : ℕ) (hb : 1 < base) (upper : Bool) (f1 : ℕ)
    (p : ℤ) (v : ℕ) (f2 : ℕ) (h1 : p.toNat + v < f1) (h2 : p.toNat + v < f2) :
    digitLoopFuel base upper f1 p v = digitLoopFuel base upper f2 p v := by
  induction f1 generalizing p v f2 with
  | zero => omega
  | succ f ih =>
    cases f2 with
    | zero => omega
    | succ g =>
      simp only [digitLoopFuel]
      by_cases hc : 0 < p ∨ v ≠ 0
      · simp only [if_pos hc]
        have hstep : (p - 1).toNat + v / base < f ∧ (p - 1).toNat + v / base < g := by
          rcases hc with hp | hv
          · have := Nat.div_le_self v base
            omega
          · have := Nat.div_lt_self (Nat.pos_of_ne_zero hv) hb
            omega
        rw [ih (p - 1) (v / base) g hstep.1 hstep.2]
      · simp only [if_neg hc]

/-- One-step unfolding of the digit-extraction loop. -/
theorem digitLoop_unfold (base : ℕ) (hb : 1 < base) (upper : Bool) (p : ℤ) (v : ℕ) :
    digitLoop base upper p v =
      if 0 < p ∨ v ≠ 0 then
        intDigitChar upper (v % base) :: digitLoop base upper (p - 1) (v / base)
      else [] := by
  by_cases hc : 0 < p ∨ v ≠ 0
  · rw [if_pos hc]
    have hstep : (p - 1).toNat + v / base < p.toNat + v := by
      rcases hc with hp | hv
      · have := Nat.div_le_self v base
        omega
      · have := Nat.div_lt_self (Nat.pos_of_ne_zero hv) hb
        omega
    show digitLoopFuel base upper (p.toNat + v + 1) p v = _
    simp only [digitLoopFuel]
    rw [if_pos hc]
    unfold digitLoop
    rw [digitLoopFuel_irrel base hb upper (p.toNat + v) (p - 1) (v / base)
      ((p - 1).toNat + v / base + 1) hstep (by omega)]
  · rw [if_neg hc]
    show digitLoopFuel base upper (p.toNat + v + 1) p v = []
    simp only [digitLoopFuel]
    rw [if_neg hc]

/-- With the precision already exhausted, the loop emits exactly the natural
base-`base` digits of the value (least significant first). -/
theorem digitLoop_no_precision (base : ℕ) (hb : 1 < base) (upper : Bool) (p : ℤ)
    (hp : p ≤ 0) (v : ℕ) :
    digitLoop base upper p v = (Nat.digits base v).map (intDigitChar upper) := by
  induction v using Nat.strong_induction_on generalizing p with
  | _ v ih =>
    rw [digitLoop_unfold base hb upper p v]
    by_cases hv : v = 0
    · subst hv
      rw [if_neg (by omega)]
      simp
    · rw [if_pos (Or.inr hv)]
      have hlt : v / base < v := Nat.div_lt_self (Nat.pos_of_ne_zero hv) hb
      rw [ih (v / base) hlt (p - 1) (by omega)]
      rw [Nat.digits_def' hb (Nat.pos_of_ne_zero hv)]
      simp

/-- C5: with the default precision 1 the digit-extraction loop prints the
value's natural digits (the value 0 still prints one '0', and no artificial
leading zeros are added beyond natural digits), the unspecified precision
(−1) leaves the flags untouched, and an explicit precision clears the
LeadingZeros flag before padding, so zero-padding by width and numeric
precision are mutually exclusive. -/
theorem integer_precision_default_and_leading_zeros (base : ℕ) (hb : 1 < base)
    (upper : Bool) (flags : Flags) (p : ℤ) (v : ℕ) :
    (p = -1 →
      effIntPrecision p = 1 ∧
      digitLoop base upper (effIntPrecision p) v =
        (if v = 0 then ['0']
        else (Nat.digits base v).map (intDigitChar upper)) ∧
      effIntFlags flags p = flags) ∧
    (p ≠ -1 → (effIntFlags flags p).leadingZeros = false) := by
  constructor
  · intro hp
    subst hp
    refine ⟨rfl, ?_, by simp [effIntFlags]⟩
    have h1 : effIntPrecision (-1) = 1 := rfl
    have h10 : (1 : ℤ) - 1 = 0 := by decide
    rw [h1, digitLoop_unfold base hb upper 1 v, if_pos (Or.inl (by omega)), h10]
    by_cases hv : v = 0
    · subst hv
      simp only [Nat.zero_div, Nat.zero_mod]
      rw [if_pos trivial, digitLoop_unfold base hb upper 0 0, if_neg (by simp)]
      simp [intDigitChar]
    · rw [if_neg hv, digitLoop_no_precision base hb upper 0 le_rfl (v / base)]
      rw [Nat.digits_def' hb (Nat.pos_of_ne_zero hv)]
      simp
  · intro hp
    simp [effIntFlags, hp]

/-- Witness for C5 at base 10, value 0 (default precision) and an explicit
precision with the LeadingZeros flag initially set. -/
theorem integer_precision_default_witness :
    (effIntPrecision (-1) = 1 ∧
      digitLoop 10 false (effIntPrecision (-1)) 0 =
        (if (0 : ℕ) = 0 then ['0'] else (Nat.digits 10 0).map (intDigitChar false)) ∧
      effIntFlags ⟨false, false, true, false, false, false, false⟩ (-1) =
        ⟨false, false, true, false, false, false, false⟩) ∧
    (effIntFlags ⟨false, false, true, false, false, false, false⟩ 5).leadingZeros = false :=
  ⟨(integer_precision_default_and_leading_zeros 10 (by norm_num) false
      ⟨false, false, true, false, false, false, false⟩ (-1) 0).1 rfl,
    (integer_precision_default_and_leading_zeros 10 (by norm_num) false
      ⟨false, false, true, false, false, false, false⟩ 5 0).2 (by decide)⟩

/-!
## Decorative digit grouping
-/

/-- The grouping loop of the integer helpers: `mod = k - (len % k)`, then
for each digit `convBuf.Append(c)` and, when `!(++mod % k)` and the digit is
not the last one, `convBuf.Append(sep)`. -/
def groupLoop (k : ℕ) (sep : Char) : ℕ → List Char → List Char
  | _, [] => []
  | m, c :: rest =>
    if (m + 1) % k = 0 ∧ rest ≠ [] then c :: sep :: groupLoop k sep (m + 1) rest
    else c :: groupLoop k sep (m + 1) rest

/-- Grouping selection of the integer helpers (`groupSize` is 4 for native
operand widths, 8 for the extended 128/256/512-bit widths): the `_` flag is
tested first and so wins over the `'` flag; `'` groups in threes with
commas. -/
def decorateDigits (flags : Flags) (groupSize : ℕ) (curr : List Char) : List Char :=
  if flags.decorativeFormatting then
    groupLoop groupSize '_' (groupSize - curr.length % groupSize) curr
  else if flags.decorativeFormattingAlt then
    groupLoop 3 ',' (3 - curr.length % 3) curr
  else curr

/-- Reference formulation of grouping from the right: a separator follows a
digit exactly when a positive multiple of `k` digits remains to its right
(so no separator at the leftmost boundary or after the last digit). -/
def groupEvery (k : ℕ) (sep : Char) : List Char → List Char
  | [] => []
  | c :: rest =>
    if rest.length % k = 0 ∧ rest ≠ [] then c :: sep :: groupEvery k sep rest
    else c :: groupEvery k sep rest

/-- The `mod` counter of the grouping loop fires exactly when the number of
remaining digits is a multiple of `k`. -/
theorem groupLoop_eq_groupEvery (k : ℕ) (hk : 0 < k) (sep : Char) :
    ∀ (l : List Char) (m : ℕ), (m + l.length) % k = 0 →
      groupLoop k sep m l = groupEvery k sep l := by
  intro l
  induction l with
  | nil => intro m _; rfl
  | cons c rest ih =>
    intro m h
    have hsum : m + (c :: rest).length = m + 1 + rest.length := by
      simp only [List.length_cons]
      omega
    rw [hsum] at h
    have hdvd : k ∣ m + 1 + rest.length := Nat.dvd_of_mod_eq_zero h
    have hiff : ((m + 1) % k = 0) ↔ (rest.length % k = 0) := by
      constructor
      · intro hm
        have h1 : k ∣ m + 1 := Nat.dvd_of_mod_eq_zero hm
        have h2 : k ∣ rest.length := by
          have h3 := Nat.dvd_sub' hdvd h1
          have h4 : m + 1 + rest.length - (m + 1) = rest.length := by omega
          rwa [h4] at h3
        exact Nat.mod_eq_zero_of_dvd h2
      · intro hr
        have h1 : k ∣ rest.length := Nat.dvd_of_mod_eq_zero hr
        have h2 : k ∣ m + 1 := by
          have h3 := Nat.dvd_sub' hdvd h1
          have h4 : m + 1 + rest.length - rest.length = m + 1 := by omega
          rwa [h4] at h3
        exact Nat.mod_eq_zero_of_dvd h2
    unfold groupLoop groupEvery
    have hrec := ih (m + 1) h
    by_cases hfire : rest.length % k = 0 ∧ rest ≠ []
    · rw [if_pos ⟨hiff.mpr hfire.1, hfire.2⟩, if_pos hfire, hrec]
    · have hnot : ¬ ((m + 1) % k = 0 ∧ rest ≠ []) := by
        intro hcontra
        exact hfire ⟨hiff.mp hcontra.1, hcontra.2⟩
      rw [if_neg hnot, if_neg hfire, hrec]

/-- The initial counter value `k - len % k` satisfies the loop invariant. -/
theorem groupLoop_init_mod (k : ℕ) (hk : 0 < k) (n : ℕ) :
    (k - n % k + n) % k = 0 := by
  have h2 : n % k < k := Nat.mod_lt n hk
  have h3 : k * (n / k) + n % k = n := Nat.div_add_mod n k
  have h4 : k - n % k + n = k * (n / k + 1) := by
    calc k - n % k + n = k - n % k + (k * (n / k) + n % k) := by rw [h3]
      _ = k - n % k + (n % k + k * (n / k)) := by rw [Nat.add_comm (k * (n / k)) (n % k)]
      _ = (k - n % k + n % k) + k * (n / k) := (Nat.add_assoc _ _ _).symm
      _ = k + k * (n / k) := by rw [Nat.sub_add_cancel (le_of_lt h2)]
      _ = k * (n / k + 1) := by ring
  rw [h4]
  exact Nat.mul_mod_right k _

/-- C6: for every rendered digit string, the `_` flag groups with `_` every
`groupSize` digits from the right (4 for native widths, 8 for extended
widths) and wins over the `'` flag when both are set; the `'` flag groups
with `,` every 3 digits from the right; insertion is skipped at the final
(leftmost) boundary — all captured by the `groupEvery` reference form. -/
theorem decorative_grouping (ds : List Char) (flags : Flags) :
    (flags.decorativeFormatting = true →
      decorateDigits flags 4 ds = groupEvery 4 '_' ds ∧
      decorateDigits flags 8 ds = groupEvery 8 '_' ds) ∧
    (flags.decorativeFormatting = false → flags.decorativeFormattingAlt = true →
      ∀ k, decorateDigits flags k ds = groupEvery 3 ',' ds) := by
  constructor
  · intro h4
    constructor
    · unfold decorateDigits
      rw [if_pos h4]
      exact groupLoop_eq_groupEvery 4 (by norm_num) '_' ds _
        (groupLoop_init_mod 4 (by norm_num) ds.length)
    · unfold decorateDigits
      rw [if_pos h4]
      exact groupLoop_eq_groupEvery 8 (by norm_num) '_' ds _
        (groupLoop_init_mod 8 (by norm_num) ds.length)
  · intro h4 h3 k
    unfold decorateDigits
    rw [if_neg (by simp [h4]), if_pos h3]
    exact groupLoop_eq_groupEvery 3 (by norm_num) ',' ds _
      (groupLoop_init_mod 3 (by norm_num) ds.length)

/-- Witness for C6: `1234567` with the `'` flag renders as `1,234,567`. -/
theorem decorative_grouping_witness :
    decorateDigits ⟨false, false, false, false, false, true, false⟩ 4
        ['1', '2', '3', '4', '5', '6', '7'] =
      ['1', ',', '2', '3', '4', ',', '5', '6', '7'] := by
  have h := (decorative_grouping ['1', '2', '3', '4', '5', '6', '7']
    ⟨false, false, false, false, false, true, false⟩).2 rfl rfl 4
  rw [h]
  decide


/-- Model of `HandlerHelper_IntegerNative`, assembled from its stages: sign
handling with two's-complement negation in 64-bit arithmetic, masking of a
32-bit operand, the base prefix, digit extraction with the default
precision rule, leading-zero padding, and decorative grouping with group
size 4.  `raw` is the operand's bit pattern (`raw < 2^bitSize`, `bitSize`
32 or 64). -/
def handlerHelperIntegerNative (spec : FormatSpec) (raw : ℕ) (bitSize : ℕ)
    (treatAsUnsigned upper : Bool) (base : ℕ) (forcePfxLower : Bool) : List Char :=
  let negative := raw >>> (bitSize - 1) ≠ 0
  let signChars : List Char :=
    if base = 10 then
      if ¬ treatAsUnsigned ∧ negative then ['-']
      else if spec.flags.forcePosOrNegSign then ['+']
      else if spec.flags.spaceForPosSign then [' ']
      else []
    else []
  let v1 := if base = 10 ∧ ¬ treatAsUnsigned ∧ negative then (2 ^ 64 - raw) % 2 ^ 64 else raw
  let v2 := if bitSize = 32 then v1 % 2 ^ 32 else v1
  let pfx : List Char :=
    if (spec.flags.basePfx ∧ v2 ≠ 0) ∨ forcePfxLower then
      if base = 8 then ['0']
      else if base = 16 then (if ¬ upper ∨ forcePfxLower then ['0', 'x'] else ['0', 'X'])
      else []
    else []
  let remWidth := spec.width - signChars.length - pfx.length
  let digits := (digitLoop base upper (effIntPrecision spec.precision) v2).reverse
  let eff := effIntFlags spec.flags spec.precision
  let curr :=
    if eff.leadingZeros then List.replicate (remWidth - digits.length).toNat '0' ++ digits
    else digits
  signChars ++ pfx ++ decorateDigits eff 4 curr

/-- Model of `HandlerHelper_IntegerTacent`: the same stage structure for the
extended 128/256/512-bit operands (negation and masking in 512-bit
arithmetic), with decorative grouping called at group size 8. -/
def handlerHelperIntegerTacent (spec : FormatSpec) (raw : ℕ) (bitSize : ℕ)
    (treatAsUnsigned upper : Bool) (base : ℕ) (forcePfxLower : Bool) : List Char :=
  let negative := raw >>> (bitSize - 1) ≠ 0
  let signChars : List Char :=
    if base = 10 then
      if ¬ treatAsUnsigned ∧ negative then ['-']
      else if spec.flags.forcePosOrNegSign then ['+']
      else if spec.flags.spaceForPosSign then [' ']
      else []
    else []
  let v1 := if base = 10 ∧ ¬ treatAsUnsigned ∧ negative then (2 ^ 512 - raw) % 2 ^ 512 else raw
  let v2 :=
    if bitSize = 128 then v1 % 2 ^ 128
    else if bitSize = 256 then v1 % 2 ^ 256
    else v1
  let pfx : List Char :=
    if (spec.flags.basePfx ∧ v2 ≠ 0) ∨ forcePfxLower then
      if base = 8 then ['0']
      else if base = 16 then (if ¬ upper ∨ forcePfxLower then ['0', 'x'] else ['0', 'X'])
      else []
    else []
  let remWidth := spec.width - signChars.length - pfx.length
  let digits := (digitLoop base upper (effIntPrecision spec.precision) v2).reverse
  let eff := effIntFlags spec.flags spec.precision
  let curr :=
    if eff.leadingZeros then List.replicate (remWidth - digits.length).toNat '0' ++ digits
    else digits
  signChars ++ pfx ++ decorateDigits eff 8 curr

/-!
## Justification helpers and `Handler_s`
-/

/-- Model of `HandlerHelper_JustificationProlog`: right-justification padding, `0`
when LeadingZeros is set, spaces otherwise; nothing when left-justifying or
when the width does not exceed the item length. -/
def justificationProlog (itemLength : ℤ) (spec : FormatSpec) : List Char :=
  if spec.flags.leftJustify then []
  else
    List.replicate (spec.width - itemLength).toNat
      (if spec.flags.leadingZeros then '0' else ' ')

/-- Model of `HandlerHelper_JustificationEpilog`: left-justification padding of
spaces. -/
def justificationEpilog (itemLength : ℤ) (spec : FormatSpec) : List Char :=
  if ¬ spec.flags.leftJustify then []
  else List.replicate (spec.width - itemLength).toNat ' '

/-- Model of `Handler_s`: `numToAppend = strlen(str)`, clamped to the precision when
one is specified; then prolog padding, the clamped run, epilog padding.
`str` holds the argument string's characters (terminator excluded). -/
def handler_s (spec : FormatSpec) (str : List Char) : List Char :=
  let numToAppend : ℤ :=
    if spec.precision ≠ -1 ∧ (str.length : ℤ) > spec.precision then spec.precision
    else (str.length : ℤ)
  justificationProlog numToAppend spec ++ str.take numToAppend.toNat ++
    justificationEpilog numToAppend spec

/-- C10: with a specified precision `p ≥ 0` the `%s` handler delivers exactly
`min(n, p)` characters of the argument string, with justification padding
computed against that truncated length; with precision unspecified (−1) it
delivers all `n` characters. -/
theorem handler_s_precision_truncation (spec : FormatSpec) (str : List Char) :
    (0 ≤ spec.precision →
      handler_s spec str =
        justificationProlog (min (str.length : ℤ) spec.precision) spec ++
          str.take (min str.length spec.precision.toNat) ++
          justificationEpilog (min (str.length : ℤ) spec.precision) spec) ∧
    (spec.precision = -1 →
      handler_s spec str =
        justificationProlog (str.length : ℤ) spec ++ str ++
          justificationEpilog (str.length : ℤ) spec) := by
  constructor
  · intro hp
    unfold handler_s
    have hnum :
        (if spec.precision ≠ -1 ∧ (str.length : ℤ) > spec.precision then spec.precision
          else (str.length : ℤ)) = min (str.length : ℤ) spec.precision := by
      split_ifs with h
      · omega
      · push_neg at h
        omega
    have htk : (min (str.length : ℤ) spec.precision).toNat = min str.length spec.precision.toNat := by
      omega
    simp only [hnum, htk]
  · intro hp
    unfold handler_s
    have hcond : ¬ (spec.precision ≠ -1 ∧ (str.length : ℤ) > spec.precision) := by simp [hp]
    have htk : ((str.length : ℤ)).toNat = str.length := by omega
    simp only [if_neg hcond, htk, List.take_length]

/-- Witness for C10: precision 1 truncates a two-character string to one
character; an unspecified precision keeps both characters. -/
theorem handler_s_precision_truncation_witness :
    handler_s ⟨⟨false, false, false, false, false, false, false⟩, 0, 1, 0⟩ ['a', 'b'] = ['a'] ∧
      handler_s ⟨⟨false, false, false, false, false, false, false⟩, 0, -1, 0⟩ ['a', 'b'] =
        ['a', 'b'] := by
  constructor
  · exact ((handler_s_precision_truncation
      ⟨⟨false, false, false, false, false, false, false⟩, 0, 1, 0⟩ ['a', 'b']).1
      (by decide)).trans (by decide)
  · exact ((handler_s_precision_truncation
      ⟨⟨false, false, false, false, false, false, false⟩, 0, -1, 0⟩ ['a', 'b']).2
      rfl).trans (by decide)

/-!
## The `%g` branch choice (`Handler_g`)
-/

/-- The two rendering algorithms `%g` can delegate to. -/
inductive GBranch where
  | fixedPoint
  | exponential
deriving DecidableEq, Repr

/-- The branch choice of `Handler_g`: the effective precision is the spec's
precision, else the process-wide default; the fixed-point algorithm (with
precision treated as significant digits) is chosen when
`v < tPow(10.0, precision)` — the raw signed operand, not its magnitude —
else the exponential algorithm. -/
def handler_g_branch (precision : ℤ) (defaultPrecision : ℤ) (v : ℚ) : GBranch :=
  let p := if precision = -1 then defaultPrecision else precision
  if v < (10 : ℚ) ^ p then GBranch.fixedPoint else GBranch.exponential

/-- C4 (counterexample): `%g` with precision 4 on the operand −20000 — whose
magnitude exceeds `10^4` — still delegates to the fixed-point algorithm,
because the source compares the signed value, not the magnitude. -/
theorem handler_g_magnitude_counterexample :
    handler_g_branch 4 4 (-20000) = GBranch.fixedPoint ∧
      ¬ (|(-20000 : ℚ)| < (10 : ℚ) ^ (4 : ℤ)) := by
  constructor
  · unfold handler_g_branch
    norm_num
  · norm_num

/-- C4 (amended): `%g` delegates to the fixed-point algorithm exactly when
the signed operand `v` is less than `10^p` (`p` the effective precision):
for non-negative operands this coincides with the magnitude rule of the
claim, but every negative operand goes to the fixed-point algorithm
regardless of magnitude. -/
theorem handler_g_branch_signed (precision defaultPrecision : ℤ) (v : ℚ) :
    (0 ≤ v →
      (handler_g_branch precision defaultPrecision v = GBranch.fixedPoint ↔
        |v| < (10 : ℚ) ^ (if precision = -1 then defaultPrecision else precision))) ∧
    (v < 0 → handler_g_branch precision defaultPrecision v = GBranch.fixedPoint) := by
  constructor
  · intro hv
    rw [abs_of_nonneg hv]
    by_cases h : v < (10 : ℚ) ^ (if precision = -1 then defaultPrecision else precision)
    · simp only [handler_g_branch]
      rw [if_pos h]
      exact iff_of_true rfl h
    · simp only [handler_g_branch]
      rw [if_neg h]
      exact iff_of_false (by decide) h
  · intro hv
    have h' : v < (10 : ℚ) ^ (if precision = -1 then defaultPrecision else precision) :=
      lt_trans hv (zpow_pos (by norm_num) _)
    simp only [handler_g_branch]
    rw [if_pos h']

/-- Witness for the amended C4 theorem: the negative operand −5 delegates to
fixed-point. -/
theorem handler_g_branch_signed_witness :
    handler_g_branch 4 4 (-5) = GBranch.fixedPoint :=
  (handler_g_branch_signed 4 4 (-5)).2 (by norm_num)

/-!
## Fixed-point float rendering (`HandlerHelper_FloatNormal`)

The source operates on `double`; the model uses exact rational arithmetic,
which agrees with the source wherever the `double` operations are exact and
captures the algorithm itself: decimal expansion by repeated
division/multiplication and the manual round-half-up with carry
propagation.
-/

/-- The loop `dec = 1.0; while (dec < value) dec *= 10.0;` — the exponent reached by
the search, with an explicit iteration bound (the bound chosen in
`intDigitCount` below always suffices for `value ≥ 0`). -/
def findDecExp (value : ℚ) : ℕ → ℕ → ℕ
  | 0, k => k
  | fuel + 1, k => if (10 : ℚ) ^ k < value then findDecExp value fuel (k + 1) else k

/-- Number of integer-part digits the renderer emits: after the search,
`if (dec > value) dec /= 10;`, and the emission loop runs while
`dec >= 1.0` — so `k` digits when `10^k` overshot, `k + 1` when it hit the
value exactly. -/
def intDigitCount (value : ℚ) : ℕ :=
  let k := findDecExp value (value.num.natAbs + 1) 0
  if value < (10 : ℚ) ^ k then k else k + 1

/-- The integer-part emission loop: with `e + 1` iterations left the divisor
`dec` is `10^e`; each iteration emits `digit = char(value / dec)`
(truncation), subtracts `digit * dec`, and in significant-digit mode an
emitted digit consumes one unit of precision. -/
def emitIntPart (sig : Bool) : ℕ → ℚ → ℤ → List Char × ℚ × ℤ
  | 0, v, p => ([], v, p)
  | e + 1, v, p =>
    let dec : ℚ := (10 : ℚ) ^ e
    let digit : ℤ := ⌊v / dec⌋
    let v' := v - digit * dec
    let p' := if sig ∧ 0 < p then p - 1 else p
    let r := emitIntPart sig e v' p'
    (Char.ofNat (digit.toNat + 48) :: r.1, r.2)

/-- The fractional emission loop `while (precision--)`: multiply by ten,
emit the truncated digit, subtract it. -/
def emitFracPart : ℕ → ℚ → List Char × ℚ
  | 0, v => ([], v)
  | p + 1, v =>
    let v1 := v * 10
    let digit : ℤ := ⌊v1⌋
    let v' := v1 - digit
    let r := emitFracPart p v'
    (Char.ofNat (digit.toNat + 48) :: r.1, r.2)

/-- The carry walk of the rounding step, on the reversed buffer: trailing
`'9'`s become `'0'`s, the decimal point is skipped, and the first other
character is incremented (`(*end)++`); the boolean reports whether the
increment landed on the buffer's first — reserved — character
(`end == &buf[0]`). -/
def roundCarryRev : List Char → List Char × Bool
  | [] => ([], false)
  | c :: rest =>
    if c = '9' then
      let r := roundCarryRev rest
      ('0' :: r.1, r.2)
    else if c = '.' then
      let r := roundCarryRev rest
      ('.' :: r.1, r.2)
    else
      (Char.ofNat (c.toNat + 1) :: rest, rest.isEmpty)

/-- The rounding step applied to the buffer in rendering order. -/
def applyRound (buf : List Char) : List Char × Bool :=
  let r := roundCarryRev buf.reverse
  (r.1.reverse, r.2)

/-- The `PrologHelperFloat` result: which sign character the caller still
has to place. -/
inductive PrologFloat where
  | signNone
  | needsPlus
  | needsNeg
  | needsSpace
  | noZeros
deriving DecidableEq, Repr

/-- The digit-producing part of `HandlerHelper_FloatNormal`: default the
precision, strip the sign, emit one reserved carry character and the
integer part (a `'0'` when there is no mantissa), the decimal point when
precision remains, the fractional digits, round-half-up with carry
propagation when the next unrendered digit would be ≥ 5
(`(value * 10.0) >= 5.0`), and select the result with or without the
reserved leading character (`useIdxZeroForResult`). -/
def floatNormalCore (spec : FormatSpec) (defaultPrecision : ℤ) (value : ℚ)
    (treatPrecisionAsSigDigits : Bool) : List Char :=
  let precision0 : ℤ := if spec.precision = -1 then defaultPrecision else spec.precision
  let v := if value < 0 then -value else value
  let r1 := emitIntPart treatPrecisionAsSigDigits (intDigitCount v) v precision0
  let buf0 : List Char := '0' :: (if r1.1 = [] then ['0'] else r1.1)
  let buf1 := buf0 ++ (if 0 < r1.2.2 then ['.'] else [])
  let r2 := emitFracPart r1.2.2.toNat r1.2.1
  let buf2 := buf1 ++ r2.1
  let r3 := if 5 ≤ r2.2 * 10 then applyRound buf2 else (buf2, false)
  if r3.2 then r3.1 else r3.1.drop 1

/-- Model of `HandlerHelper_FloatNormal`: the digit core plus the sign placement —
`-`/`+` are appended directly before the digits when no leading-zero
padding is requested, otherwise the sign duty is returned to the caller.
Returns the characters appended to `convBuf` and the leftover duty. -/
def handlerHelperFloatNormal (spec : FormatSpec) (defaultPrecision : ℤ) (value : ℚ)
    (treatPrecisionAsSigDigits : Bool) : List Char × PrologFloat :=
  let wasNeg := value < 0
  let ret0 : PrologFloat :=
    if wasNeg then PrologFloat.needsNeg
    else if spec.flags.forcePosOrNegSign then PrologFloat.needsPlus
    else if spec.flags.spaceForPosSign then PrologFloat.needsSpace
    else PrologFloat.signNone
  let result := floatNormalCore spec defaultPrecision value treatPrecisionAsSigDigits
  if ¬ spec.flags.leadingZeros then
    if ret0 = PrologFloat.needsNeg then ('-' :: result, PrologFloat.signNone)
    else if ret0 = PrologFloat.needsPlus then ('+' :: result, PrologFloat.signNone)
    else (result, ret0)
  else (result, ret0)

/-- Value of a buffer suffix read least-significant-digit first, skipping
characters that are not decimal digits (the decimal point, signs). -/
def rvalAux : List Char → ℕ
  | [] => 0
  | c :: rest => if isDigitChar c then digitVal c + 10 * rvalAux rest else rvalAux rest

/-- Value of a rendered buffer's digit string (most significant first),
ignoring the decimal point and sign characters. -/
def digitsVal (l : List Char) : ℕ := rvalAux l.reverse

/-- Number of digit characters in a buffer. -/
def numDigits (l : List Char) : ℕ := (l.filter (fun c => isDigitChar c)).length

/-!
## Digit-buffer lemmas
-/

theorem char_eq_of_toNat {c d : Char} (h : c.toNat = d.toNat) : c = d :=
  Char.eq_of_val_eq (UInt32.ext h)

theorem charOfNat_toNat {n : ℕ} (h : n < 55296) : (Char.ofNat n).toNat = n := by
  have hv : n.isValidChar := Or.inl h
  rw [Char.ofNat, dif_pos hv]
  rfl

theorem isDigitChar_iff (c : Char) :
    isDigitChar c = true ↔ 48 ≤ c.toNat ∧ c.toNat ≤ 57 := by
  unfold isDigitChar
  simp

theorem isDigitChar_ofNat {d : ℕ} (h : d ≤ 9) :
    isDigitChar (Char.ofNat (d + 48)) = true := by
  rw [isDigitChar_iff, charOfNat_toNat (by omega)]
  omega

theorem digitVal_ofNat {d : ℕ} (h : d ≤ 9) :
    digitVal (Char.ofNat (d + 48)) = d := by
  unfold digitVal
  rw [charOfNat_toNat (by omega)]
  omega

theorem numDigits_cons_digit {c : Char} (hc : isDigitChar c = true) (l : List Char) :
    numDigits (c :: l) = numDigits l + 1 := by
  simp [numDigits, hc]

theorem numDigits_cons_nondigit {c : Char} (hc : isDigitChar c = false) (l : List Char) :
    numDigits (c :: l) = numDigits l := by
  simp [numDigits, hc]

theorem numDigits_reverse (l : List Char) : numDigits l.reverse = numDigits l := by
  simp [numDigits]

theorem numDigits_eq_length {l : List Char} (h : ∀ c ∈ l, isDigitChar c = true) :
    numDigits l = l.length := by
  unfold numDigits
  rw [List.filter_eq_self.mpr h]

theorem rvalAux_cons_digit {c : Char} (hc : isDigitChar c = true) (l : List Char) :
    rvalAux (c :: l) = digitVal c + 10 * rvalAux l := by
  simp [rvalAux, hc]

theorem rvalAux_cons_nondigit {c : Char} (hc : isDigitChar c = false) (l : List Char) :
    rvalAux (c :: l) = rvalAux l := by
  simp [rvalAux, hc]

theorem rvalAux_append (xs ys : List Char) :
    rvalAux (xs ++ ys) = rvalAux xs + 10 ^ numDigits xs * rvalAux ys := by
  induction xs with
  | nil => simp [rvalAux, numDigits]
  | cons c xs ih =>
    rw [List.cons_append]
    cases hc : isDigitChar c with
    | true =>
      rw [rvalAux_cons_digit hc, rvalAux_cons_digit hc, ih, numDigits_cons_digit hc]
      ring
    | false =>
      rw [rvalAux_cons_nondigit hc, rvalAux_cons_nondigit hc, ih, numDigits_cons_nondigit hc]

theorem digitsVal_append (a b : List Char) :
    digitsVal (a ++ b) = digitsVal a * 10 ^ numDigits b + digitsVal b := by
  unfold digitsVal
  rw [List.reverse_append, rvalAux_append, numDigits_reverse]
  ring

theorem digitsVal_cons_digit {c : Char} (hc : isDigitChar c = true) (l : List Char) :
    digitsVal (c :: l) = digitVal c * 10 ^ numDigits l + digitsVal l := by
  have h := digitsVal_append [c] l
  simpa [digitsVal, rvalAux, hc] using h

theorem digitsVal_cons_nondigit {c : Char} (hc : isDigitChar c = false) (l : List Char) :
    digitsVal (c :: l) = digitsVal l := by
  have h := digitsVal_append [c] l
  simpa [digitsVal, rvalAux, hc] using h

/-!
## Correctness of the decimal expansion loops
-/

theorem emitIntPart_spec (e : ℕ) :
    ∀ (v : ℚ) (p : ℤ), 0 ≤ v → v < 10 ^ e →
      (∀ c ∈ (emitIntPart false e v p).1, isDigitChar c = true) ∧
        (emitIntPart false e v p).1.length = e ∧
        digitsVal (emitIntPart false e v p).1 = (⌊v⌋).toNat ∧
        (emitIntPart false e v p).2.1 = v - ⌊v⌋ ∧
        (emitIntPart false e v p).2.2 = p := by
  induction e with
  | zero =>
    intro v p hv0 hv1
    have hfl : ⌊v⌋ = 0 := by
      rw [Int.floor_eq_zero_iff]
      constructor
      · exact hv0
      · simpa using hv1
    refine ⟨by simp [emitIntPart], by simp [emitIntPart], ?_, ?_, rfl⟩
    · simp [emitIntPart, digitsVal, rvalAux, hfl]
    · simp [emitIntPart, hfl]
  | succ e ih =>
    intro v p hv0 hv1
    have hpow : (0 : ℚ) < 10 ^ e := by positivity
    set d : ℤ := ⌊v / 10 ^ e⌋ with hd
    have hd0 : 0 ≤ d := Int.floor_nonneg.mpr (div_nonneg hv0 (le_of_lt hpow))
    have hd9 : d ≤ 9 := by
      have hlt : v / 10 ^ e < 10 := by
        rw [div_lt_iff hpow]
        calc v < 10 ^ (e + 1) := hv1
          _ = 10 * 10 ^ e := by ring
      have h2 : d < 10 := by
        rw [hd, Int.floor_lt]
        push_cast
        exact hlt
      omega
    set v' : ℚ := v - (d : ℚ) * 10 ^ e with hv'
    have hv'0 : 0 ≤ v' := by
      have h1 : (d : ℚ) ≤ v / 10 ^ e := Int.floor_le _
      have h2 : (d : ℚ) * 10 ^ e ≤ v := by
        rw [← le_div_iff hpow]
        exact h1
      simp [hv']
      linarith
    have hv'1 : v' < 10 ^ e := by
      have h1 : v / 10 ^ e < (d : ℚ) + 1 := Int.lt_floor_add_one _
      have h2 : v < ((d : ℚ) + 1) * 10 ^ e := by
        rw [← div_lt_iff hpow]
        exact h1
      simp only [hv']
      nlinarith
    obtain ⟨hall, hlen, hval, hrem, hprec⟩ := ih v' p hv'0 hv'1
    have hstep :
        emitIntPart false (e + 1) v p =
          (Char.ofNat (d.toNat + 48) :: (emitIntPart false e v' p).1,
            (emitIntPart false e v' p).2) := by
      simp only [emitIntPart, hd, hv']
      rfl
    have hdig : isDigitChar (Char.ofNat (d.toNat + 48)) = true :=
      isDigitChar_ofNat (by omega)
    have hfloor : ⌊v⌋ = ⌊v'⌋ + d * 10 ^ e := by
      have hsplit : v = v' + ((d * 10 ^ e : ℤ) : ℚ) := by
        simp only [hv']
        push_cast
        ring
      rw [hsplit, Int.floor_add_int]
    have hfl0 : 0 ≤ ⌊v'⌋ := Int.floor_nonneg.mpr hv'0
    refine ⟨?_, ?_, ?_, ?_, ?_⟩
    · rw [hstep]
      intro c hc
      rcases List.mem_cons.mp hc with h | h
      · rw [h]; exact hdig
      · exact hall c h
    · rw [hstep]
      simp [hlen]
    · rw [hstep, digitsVal_cons_digit hdig, numDigits_eq_length hall, hlen, hval,
        digitVal_ofNat (by omega)]
      have hz : ((d.toNat * 10 ^ e + ⌊v'⌋.toNat : ℕ) : ℤ) = ⌊v⌋ := by
        push_cast [Int.toNat_of_nonneg hd0, Int.toNat_of_nonneg hfl0]
        rw [hfloor]
        ring
      have hvnn : 0 ≤ ⌊v⌋ := Int.floor_nonneg.mpr hv0
      omega
    · rw [hstep]
      simp only [hrem]
      rw [hfloor]
      push_cast
      simp only [hv']
      ring
    · rw [hstep]
      exact hprec

theorem emitFracPart_spec (p : ℕ) :
    ∀ (v : ℚ), 0 ≤ v → v < 1 →
      (∀ c ∈ (emitFracPart p v).1, isDigitChar c = true) ∧
        (emitFracPart p v).1.length = p ∧
        digitsVal (emitFracPart p v).1 = (⌊v * 10 ^ p⌋).toNat ∧
        (emitFracPart p v).2 = v * 10 ^ p - ⌊v * 10 ^ p⌋ := by
  induction p with
  | zero =>
    intro v hv0 hv1
    have hfl : ⌊v⌋ = 0 := by
      rw [Int.floor_eq_zero_iff]
      exact ⟨hv0, hv1⟩
    refine ⟨by simp [emitFracPart], by simp [emitFracPart], ?_, ?_⟩
    · simp [emitFracPart, digitsVal, rvalAux, hfl]
    · simp [emitFracPart, hfl]
  | succ p ih =>
    intro v hv0 hv1
    set d : ℤ := ⌊v * 10⌋ with hd
    have hd0 : 0 ≤ d := Int.floor_nonneg.mpr (by linarith)
    have hd9 : d ≤ 9 := by
      have hlt : v * 10 < 10 := by linarith
      have h2 : d < 10 := by
        rw [hd, Int.floor_lt]
        push_cast
        exact hlt
      omega
    set v' : ℚ := v * 10 - (d : ℚ) with hv'
    have hv'0 : 0 ≤ v' := by
      have := Int.floor_le (v * 10)
      simp only [hv', hd]
      linarith
    have hv'1 : v' < 1 := by
      have := Int.lt_floor_add_one (v * 10)
      simp only [hv', hd]
      linarith
    obtain ⟨hall, hlen, hval, hrem⟩ := ih v' hv'0 hv'1
    have hstep :
        emitFracPart (p + 1) v =
          (Char.ofNat (d.toNat + 48) :: (emitFracPart p v').1, (emitFracPart p v').2) := by
      simp only [emitFracPart, hd, hv']
    have hdig : isDigitChar (Char.ofNat (d.toNat + 48)) = true :=
      isDigitChar_ofNat (by omega)
    have hsplit : v * 10 ^ (p + 1) = v' * 10 ^ p + ((d * 10 ^ p : ℤ) : ℚ) := by
      simp only [hv']
      push_cast
      ring
    have hfloor : ⌊v * 10 ^ (p + 1)⌋ = ⌊v' * 10 ^ p⌋ + d * 10 ^ p := by
      rw [hsplit, Int.floor_add_int]
    have hfl0 : 0 ≤ ⌊v' * 10 ^ p⌋ := Int.floor_nonneg.mpr (by positivity)
    refine ⟨?_, ?_, ?_, ?_⟩
    · rw [hstep]
      intro c hc
      rcases List.mem_cons.mp hc with h | h
      · rw [h]; exact hdig
      · exact hall c h
    · rw [hstep]
      simp [hlen]
    · rw [hstep, digitsVal_cons_digit hdig, numDigits_eq_length hall, hlen, hval,
        digitVal_ofNat (by omega)]
      have hz : ((d.toNat * 10 ^ p + ⌊v' * 10 ^ p⌋.toNat : ℕ) : ℤ) = ⌊v * 10 ^ (p + 1)⌋ := by
        push_cast [Int.toNat_of_nonneg hd0, Int.toNat_of_nonneg hfl0]
        rw [hfloor]
        ring
      have hvnn : 0 ≤ ⌊v * 10 ^ (p + 1)⌋ := Int.floor_nonneg.mpr (by positivity)
      omega
    · rw [hstep]
      simp only [hrem]
      rw [hfloor]
      push_cast
      ring

/-!
## The carry walk
-/

/-- Incrementing a digit character other than `'9'` gives the next digit. -/
theorem digit_char_succ {c : Char} (hc : isDigitChar c = true) (h9 : c ≠ '9') :
    isDigitChar (Char.ofNat (c.toNat + 1)) = true ∧
      digitVal (Char.ofNat (c.toNat + 1)) = digitVal c + 1 := by
  obtain ⟨h1, h2⟩ := (isDigitChar_iff c).mp hc
  have h57 : c.toNat ≠ 57 := by
    intro h
    exact h9 (char_eq_of_toNat (by rw [h]; rfl))
  have h3 : c.toNat + 1 < 55296 := by omega
  constructor
  · rw [isDigitChar_iff, charOfNat_toNat h3]
    omega
  · unfold digitVal
    rw [charOfNat_toNat h3]
    omega

/-- The carry walk on a reversed buffer ending in the reserved `'0'`:
the represented value increases by one, and when the walk stops before the
reserved character the reserved `'0'` is still the buffer's last (reversed)
character. -/
theorem roundCarryRev_zero_end (xs : List Char)
    (hx : ∀ c ∈ xs, isDigitChar c = true ∨ c = '.') :
    rvalAux (roundCarryRev (xs ++ ['0'])).1 = rvalAux (xs ++ ['0']) + 1 ∧
      ((roundCarryRev (xs ++ ['0'])).2 = false →
        ∃ ys, (roundCarryRev (xs ++ ['0'])).1 = ys ++ ['0']) := by
  induction xs with
  | nil =>
    refine ⟨by decide, ?_⟩
    intro hfl
    exact absurd hfl (by decide)
  | cons c xs ih =>
    have hx' : ∀ a ∈ xs, isDigitChar a = true ∨ a = '.' := fun a ha => hx a (by simp [ha])
    obtain ⟨hval, hlast⟩ := ih hx'
    by_cases h9 : c = '9'
    · subst h9
      have hstep :
          roundCarryRev (('9' :: xs) ++ ['0']) =
            ('0' :: (roundCarryRev (xs ++ ['0'])).1, (roundCarryRev (xs ++ ['0'])).2) := by
        simp [roundCarryRev]
      rw [hstep]
      constructor
      · simp only [List.cons_append]
        rw [rvalAux_cons_digit (show isDigitChar '0' = true from by decide),
          rvalAux_cons_digit (show isDigitChar '9' = true from by decide), hval]
        have h0 : digitVal '0' = 0 := by decide
        have h9v : digitVal '9' = 9 := by decide
        rw [h0, h9v]
        ring
      · intro hfl
        obtain ⟨ys, hys⟩ := hlast hfl
        exact ⟨'0' :: ys, by simp [hys]⟩
    · by_cases hdot : c = '.'
      · subst hdot
        have hstep :
            roundCarryRev (('.' :: xs) ++ ['0']) =
              ('.' :: (roundCarryRev (xs ++ ['0'])).1, (roundCarryRev (xs ++ ['0'])).2) := by
          simp [roundCarryRev]
        rw [hstep]
        constructor
        · simp only [List.cons_append,
            rvalAux_cons_nondigit (show isDigitChar '.' = false from by decide)]
          exact hval
        · intro hfl
          obtain ⟨ys, hys⟩ := hlast hfl
          exact ⟨'.' :: ys, by simp [hys]⟩
      · have hcdig : isDigitChar c = true := by
          rcases hx c (by simp) with h | h
          · exact h
          · exact absurd h hdot
        have hstep :
            roundCarryRev ((c :: xs) ++ ['0']) =
              (Char.ofNat (c.toNat + 1) :: (xs ++ ['0']), (xs ++ ['0']).isEmpty) := by
          simp only [List.cons_append, roundCarryRev]
          rw [if_neg h9, if_neg hdot]
          rfl
        obtain ⟨hsd, hsv⟩ := digit_char_succ hcdig h9
        rw [hstep]
        constructor
        · simp only [List.cons_append]
          rw [rvalAux_cons_digit hsd, rvalAux_cons_digit hcdig, hsv]
          ring
        · intro _
          exact ⟨Char.ofNat (c.toNat + 1) :: xs, by simp⟩

/-- The rounding step on a buffer with the reserved leading `'0'`, followed
by the result selection of the source, increments the represented digit value by
exactly one. -/
theorem applyRound_result_val (t : List Char)
    (ht : ∀ c ∈ t, isDigitChar c = true ∨ c = '.') :
    digitsVal
        (if (applyRound ('0' :: t)).2 then (applyRound ('0' :: t)).1
        else (applyRound ('0' :: t)).1.drop 1) =
      digitsVal t + 1 := by
  have hx : ∀ c ∈ t.reverse, isDigitChar c = true ∨ c = '.' :=
    fun c hc => ht c (List.mem_reverse.mp hc)
  obtain ⟨hval, hlast⟩ := roundCarryRev_zero_end t.reverse hx
  have hrev : ('0' :: t).reverse = t.reverse ++ ['0'] := by simp
  have hbase : rvalAux (t.reverse ++ ['0']) = digitsVal t := by
    rw [rvalAux_append]
    have h0 : rvalAux ['0'] = 0 := by decide
    rw [h0]
    simp [digitsVal]
  by_cases hfl : (roundCarryRev (t.reverse ++ ['0'])).2
  · have happly2 : (applyRound ('0' :: t)).2 = true := by
      simp only [applyRound, hrev]
      exact hfl
    have happly1 : (applyRound ('0' :: t)).1 = (roundCarryRev (t.reverse ++ ['0'])).1.reverse := by
      simp only [applyRound, hrev]
    rw [if_pos happly2, happly1]
    unfold digitsVal
    rw [List.reverse_reverse, hval, hbase]
    rfl
  · have hfl' : (roundCarryRev (t.reverse ++ ['0'])).2 = false := by
      cases h : (roundCarryRev (t.reverse ++ ['0'])).2
      · rfl
      · exact absurd h hfl
    obtain ⟨ys, hys⟩ := hlast hfl'
    have happly2 : (applyRound ('0' :: t)).2 = false := by
      simp only [applyRound, hrev]
      exact hfl'
    have happly1 : (applyRound ('0' :: t)).1 = (roundCarryRev (t.reverse ++ ['0'])).1.reverse := by
      simp only [applyRound, hrev]
    rw [if_neg (by simp [happly2]), happly1, hys]
    have hdrop : (ys ++ ['0']).reverse.drop 1 = ys.reverse := by
      simp
    rw [hdrop]
    unfold digitsVal
    rw [List.reverse_reverse]
    have h1 : rvalAux (ys ++ ['0']) = rvalAux ys := by
      rw [rvalAux_append]
      have h0 : rvalAux ['0'] = 0 := by decide
      rw [h0]
      ring
    have h2 : rvalAux ys = rvalAux (t.reverse ++ ['0']) + 1 := by
      rw [← h1, ← hys]
      exact hval
    rw [h2, hbase]
    rfl

/-!
## The digit-count search always covers the value
-/

theorem findDecExp_le_bound (v : ℚ) (fuel : ℕ) :
    ∀ k : ℕ, v ≤ 10 ^ (k + fuel) → v ≤ (10 : ℚ) ^ findDecExp v fuel k := by
  induction fuel with
  | zero =>
    intro k h
    simpa [findDecExp] using h
  | succ fuel ih =>
    intro k h
    unfold findDecExp
    by_cases hc : (10 : ℚ) ^ k < v
    · rw [if_pos hc]
      apply ih (k + 1)
      have he : k + 1 + fuel = k + (fuel + 1) := by omega
      rw [he]
      exact h
    · rw [if_neg hc]
      exact le_of_not_lt hc

theorem rat_le_pow_bound (v : ℚ) (hv : 0 ≤ v) :
    v ≤ (10 : ℚ) ^ (0 + (v.num.natAbs + 1)) := by
  have hden : (1 : ℚ) ≤ (v.den : ℚ) := by
    have := v.pos
    exact_mod_cast this
  have h1 : v ≤ (v.num : ℚ) := by
    conv_lhs => rw [← Rat.num_div_den v]
    apply div_le_self ?_ hden
    exact_mod_cast Rat.num_nonneg.mpr hv
  have h2 : (v.num : ℚ) = ((v.num.natAbs : ℕ) : ℚ) := by
    rw [Int.cast_natAbs]
    exact_mod_cast (abs_of_nonneg (Rat.num_nonneg.mpr hv)).symm
  have h3 : ((v.num.natAbs : ℕ) : ℚ) ≤ 10 ^ v.num.natAbs := by
    have hnat : v.num.natAbs < 10 ^ v.num.natAbs := Nat.lt_pow_self (by norm_num) _
    calc ((v.num.natAbs : ℕ) : ℚ) ≤ ((10 ^ v.num.natAbs : ℕ) : ℚ) := by
          exact_mod_cast le_of_lt hnat
      _ = 10 ^ v.num.natAbs := by push_cast; ring
  have h4 : (10 : ℚ) ^ v.num.natAbs ≤ 10 ^ (v.num.natAbs + 1) := by
    apply pow_le_pow_right (by norm_num)
    omega
  rw [Nat.zero_add]
  linarith

theorem intDigitCount_bound (v : ℚ) (hv : 0 ≤ v) : v < 10 ^ intDigitCount v := by
  simp only [intDigitCount]
  have hk : v ≤ (10 : ℚ) ^ findDecExp v (v.num.natAbs + 1) 0 :=
    findDecExp_le_bound v (v.num.natAbs + 1) 0 (rat_le_pow_bound v hv)
  by_cases h : v < (10 : ℚ) ^ findDecExp v (v.num.natAbs + 1) 0
  · rw [if_pos h]
    exact h
  · rw [if_neg h]
    have heq : v = 10 ^ findDecExp v (v.num.natAbs + 1) 0 := le_antisymm hk (le_of_not_lt h)
    calc v = 10 ^ findDecExp v (v.num.natAbs + 1) 0 := heq
      _ < 10 ^ (findDecExp v (v.num.natAbs + 1) 0 + 1) := by
          apply pow_lt_pow_right (by norm_num)
          omega

/-!
## Round-half-up and the floor
-/

theorem floor_add_half_of_fract_lt {x : ℚ} (h : x - ⌊x⌋ < 1 / 2) :
    ⌊x + 1 / 2⌋ = ⌊x⌋ := by
  rw [Int.floor_eq_iff]
  constructor
  · have := Int.floor_le x
    linarith
  · push_cast
    linarith

theorem floor_add_half_of_fract_ge {x : ℚ} (h : 1 / 2 ≤ x - ⌊x⌋) :
    ⌊x + 1 / 2⌋ = ⌊x⌋ + 1 := by
  rw [Int.floor_eq_iff]
  constructor
  · push_cast
    linarith
  · have := Int.lt_floor_add_one x
    push_cast
    linarith

/-- Core correctness of the fixed-point renderer: for a non-negative value
and effective precision `pe ≥ 0`, the digit string rendered by
`floatNormalCore` (decimal point ignored) is the decimal numeral of
`⌊v * 10^pe + 1/2⌋` — round-half-up of the exact value, carry propagation
included. -/
theorem floatNormalCore_val (spec : FormatSpec) (dp : ℤ) (v : ℚ)
    (hv : 0 ≤ v) (hp : 0 ≤ (if spec.precision = -1 then dp else spec.precision)) :
    (digitsVal (floatNormalCore spec dp v false) : ℤ) =
      ⌊v * 10 ^ (if spec.precision = -1 then dp else spec.precision).toNat + 1 / 2⌋ := by
  have hvneg : ¬ (v < 0) := not_lt.mpr hv
  set pe : ℤ := if spec.precision = -1 then dp else spec.precision with hpe
  set P : ℕ := pe.toNat with hP
  obtain ⟨hall1, hlen1, hval1, hrem1, hp1⟩ :=
    emitIntPart_spec (intDigitCount v) v pe hv (intDigitCount_bound v hv)
  set ds := (emitIntPart false (intDigitCount v) v pe).1 with hds
  set v2 := (emitIntPart false (intDigitCount v) v pe).2.1 with hv2def
  have hfr0 : 0 ≤ v2 := by
    rw [hrem1]
    have := Int.floor_le v
    linarith
  have hfr1 : v2 < 1 := by
    rw [hrem1]
    have := Int.lt_floor_add_one v
    linarith
  obtain ⟨hall2, hlen2, hval2, hrem2⟩ := emitFracPart_spec P v2 hfr0 hfr1
  set fs := (emitFracPart P v2).1 with hfs
  set x : ℚ := v * 10 ^ P with hx
  have hx0 : 0 ≤ x := by
    rw [hx]
    positivity
  have hsplitx : x = v2 * 10 ^ P + ((⌊v⌋ * 10 ^ P : ℤ) : ℚ) := by
    rw [hx, hrem1]
    push_cast
    ring
  have hfloorx : ⌊x⌋ = ⌊v2 * 10 ^ P⌋ + ⌊v⌋ * 10 ^ P := by
    rw [hsplitx, Int.floor_add_int]
  have hfractx : x - ⌊x⌋ = v2 * 10 ^ P - ⌊v2 * 10 ^ P⌋ := by
    rw [hfloorx, hsplitx]
    push_cast
    ring
  -- shape of the buffer
  set ip : List Char := if ds = [] then ['0'] else ds with hip
  set dot : List Char := if 0 < pe then ['.'] else [] with hdot
  set t : List Char := ip ++ dot ++ fs with ht
  have hipall : ∀ c ∈ ip, isDigitChar c = true := by
    rw [hip]
    by_cases h : ds = []
    · rw [if_pos h]
      intro c hc
      rcases List.mem_singleton.mp hc with rfl
      decide
    · rw [if_neg h]
      exact hall1
  have htall : ∀ c ∈ t, isDigitChar c = true ∨ c = '.' := by
    rw [ht]
    intro c hc
    rcases List.mem_append.mp hc with h | h
    · rcases List.mem_append.mp h with h2 | h2
      · exact Or.inl (hipall c h2)
      · right
        rw [hdot] at h2
        by_cases hc2 : 0 < pe
        · rw [if_pos hc2] at h2
          exact List.mem_singleton.mp h2
        · rw [if_neg hc2] at h2
          simp at h2
    · exact Or.inl (hall2 c h)
  have hvip : digitsVal ip = (⌊v⌋).toNat := by
    rw [hip]
    by_cases h : ds = []
    · rw [if_pos h]
      have hcount : intDigitCount v = 0 := by
        rw [← hlen1, h]
        rfl
      have hvlt : v < 1 := by
        have := intDigitCount_bound v hv
        rw [hcount] at this
        simpa using this
      have : ⌊v⌋ = 0 := by
        rw [Int.floor_eq_zero_iff]
        exact ⟨hv, hvlt⟩
      rw [this]
      decide
    · rw [if_neg h]
      exact hval1
  have hvt : (digitsVal t : ℤ) = ⌊x⌋ := by
    have h1 : digitsVal t = digitsVal (ip ++ dot) * 10 ^ numDigits fs + digitsVal fs := by
      rw [ht, digitsVal_append]
    have h2 : digitsVal (ip ++ dot) = digitsVal ip := by
      rw [digitsVal_append]
      have hnd : numDigits dot = 0 := by
        rw [hdot]
        by_cases h : 0 < pe
        · rw [if_pos h]
          decide
        · rw [if_neg h]
          decide
      have hvd : digitsVal dot = 0 := by
        rw [hdot]
        by_cases h : 0 < pe
        · rw [if_pos h]
          decide
        · rw [if_neg h]
          decide
      rw [hnd, hvd]
      ring
    have h3 : numDigits fs = P := by
      rw [numDigits_eq_length hall2, hlen2]
    have hflv : 0 ≤ ⌊v⌋ := Int.floor_nonneg.mpr hv
    have hflf : 0 ≤ ⌊v2 * 10 ^ P⌋ := Int.floor_nonneg.mpr (by positivity)
    rw [h1, h2, h3, hvip, hval2, hfloorx]
    push_cast [Int.toNat_of_nonneg hflv, Int.toNat_of_nonneg hflf]
    ring
  -- unfold the core
  have hcore :
      floatNormalCore spec dp v false =
        (if (if 5 ≤ (emitFracPart P v2).2 * 10 then applyRound ('0' :: t) else ('0' :: t, false)).2
        then (if 5 ≤ (emitFracPart P v2).2 * 10 then applyRound ('0' :: t) else ('0' :: t, false)).1
        else (if 5 ≤ (emitFracPart P v2).2 * 10 then applyRound ('0' :: t) else ('0' :: t, false)).1.drop 1) := by
    simp only [floatNormalCore, if_neg hvneg, ← hpe, ← hds, ← hv2def, hp1, ← hP, ← hfs, ← hip,
      ← hdot]
    rw [ht]
    simp
  rw [hcore]
  by_cases hround : 5 ≤ (emitFracPart P v2).2 * 10
  · rw [if_pos hround]
    rw [applyRound_result_val t htall]
    have hfge : 1 / 2 ≤ x - ⌊x⌋ := by
      rw [hfractx]
      rw [hrem2] at hround
      linarith
    rw [floor_add_half_of_fract_ge hfge]
    push_cast
    rw [hvt]
  · rw [if_neg hround]
    have hflt : x - ⌊x⌋ < 1 / 2 := by
      rw [hfractx]
      rw [hrem2] at hround
      push_neg at hround
      linarith
    rw [floor_add_half_of_fract_lt hflt]
    show (digitsVal t : ℤ) = ⌊x⌋
    exact hvt

/-- C3: the fixed-point renderer emits the integer part and the effective
precision's worth of fractional digits, then rounds half-up on the least
significant rendered digit with carry propagation (trailing 9s become 0s,
the decimal point is skipped, one reserved leading buffer character absorbs
a carry past the front): for `v ≥ 0` and effective precision `pe ≥ 0` the
rendered digit string is exactly the decimal numeral of
`⌊v * 10^pe + 1/2⌋`. -/
theorem float_fixed_round_half_up (spec : FormatSpec) (dp : ℤ) (v : ℚ)
    (hv : 0 ≤ v) (hp : 0 ≤ (if spec.precision = -1 then dp else spec.precision)) :
    (digitsVal (handlerHelperFloatNormal spec dp v false).1 : ℤ) =
      ⌊v * 10 ^ (if spec.precision = -1 then dp else spec.precision).toNat + 1 / 2⌋ := by
  have hmain := floatNormalCore_val spec dp v hv hp
  have hout : digitsVal (handlerHelperFloatNormal spec dp v false).1 =
      digitsVal (floatNormalCore spec dp v false) := by
    simp only [handlerHelperFloatNormal]
    split_ifs <;>
      first
        | rfl
        | (exact digitsVal_cons_nondigit (show isDigitChar '-' = false from by decide) _)
        | (exact digitsVal_cons_nondigit (show isDigitChar '+' = false from by decide) _)
  rw [hout]
  exact hmain

/-- Witness for C3: rendering 2.5 with precision 0 yields the digit value 3
(the string "3"). -/
theorem float_fixed_round_half_up_witness :
    (digitsVal (handlerHelperFloatNormal
        ⟨⟨false, false, false, false, false, false, false⟩, 0, 0, 0⟩ 4 (5 / 2) false).1 : ℤ) =
      3 := by
  have h := float_fixed_round_half_up
    ⟨⟨false, false, false, false, false, false, false⟩, 0, 0, 0⟩ 4 (5 / 2)
    (by norm_num) (by norm_num)
  rw [h]
  norm_num

end TacentPrint
